import Mathlib

/-!
# nano-openclaw — verification of the agent-orchestration core

Shallow embedding of the parts of the nano-openclaw runtime that the
specification's testable properties talk about, together with proofs and
refutations of those properties.

Conventions used throughout:

* Wall-clock timestamps (`Date.now()`) are modelled as `Int` milliseconds and
  passed explicitly to every operation that reads the clock.
* JavaScript strings are modelled as `String`; where a proof needs to reason
  about lengths of very long texts the text is carried as `List Char`
  (`String.data`), which has the same length as the JS string for the
  characters involved here.
* `undefined` / absent record fields are modelled as `Option`.
* Stateful classes become explicit state types plus pure transition
  functions; external effects (the croner library, the LLM endpoint, the
  filesystem) become explicit parameters or emitted operation lists.
-/

namespace NanoOpenclaw

/-! ## Tool-result truncation (src/unnamed/part_012, `wrapToolWithResultTruncation`) -/

/-- Default cap on text blocks in tool results (`MAX_TOOL_RESULT_CHARS`). -/
def MAX_TOOL_RESULT_CHARS : Nat := 50000

/-- A content block inside a tool result.  The truncation wrapper only
inspects `type` and `text`; text is carried as `List Char` so that proofs can
reason about lengths without evaluating huge string literals. -/
inductive ToolBlock
  | text (t : List Char)
  | image (data : String) (mimeType : String)
  | other
deriving DecidableEq, Repr

/-- The note appended after slicing, from
`\n\n... [truncated X chars — original L chars]` in the source. -/
def truncationNote (truncated originalLen : Nat) : List Char :=
  ("\n\n... [truncated " ++ toString truncated ++ " chars — original "
    ++ toString originalLen ++ " chars]").data

/-- One block's treatment inside `wrapToolWithResultTruncation`'s `map`:
non-text blocks and text within `maxChars` pass through; longer text is
sliced to `maxChars` and the note appended.  (The source's
`!textBlock.text` guard — empty text passes through — is subsumed by the
length test since `0 ≤ maxChars`.) -/
def truncateBlock (maxChars : Nat) (b : ToolBlock) : ToolBlock :=
  match b with
  | .text t =>
      if t.length ≤ maxChars then b
      else .text (t.take maxChars ++ truncationNote (t.length - maxChars) t.length)
  | b => b

/-- The wrapped tool's whole-result transformation: truncate each block. -/
def truncateResultContent (maxChars : Nat) (content : List ToolBlock) : List ToolBlock :=
  content.map (truncateBlock maxChars)

/-- Length of the text carried by a block (0 for non-text blocks). -/
def blockTextLength : ToolBlock → Nat
  | .text t => t.length
  | _ => 0

/-! ## Pre-compaction memory flush (src/src/agent/memory-flush.ts) -/

def COMPACTION_RESERVE_TOKENS : Nat := 20000

def MEMORY_FLUSH_SOFT_TOKENS : Nat := 4000

def DEFAULT_CONTEXT_WINDOW : Nat := 200000

/-- An entry of a message's content array as `estimateSessionTokens` sees it:
either an object with a string `text` field, or anything else. -/
inductive FlushBlock
  | withText (text : String)
  | noText
deriving DecidableEq, Repr

/-- A session message's `content` as the flush code inspects it: a plain
string, an array of blocks, or anything else. -/
inductive FlushContent
  | str (s : String)
  | blocks (bs : List FlushBlock)
  | otherContent
deriving DecidableEq, Repr

/-- A session message as seen by `maybeRunMemoryFlush`. -/
structure FlushMsg where
  content : FlushContent
deriving DecidableEq, Repr

/-- Characters contributed by one message to the estimate. -/
def flushMsgChars (m : FlushMsg) : Nat :=
  match m.content with
  | .str s => s.length
  | .blocks bs =>
      (bs.map (fun b => match b with | .withText t => t.length | .noText => 0)).sum
  | .otherContent => 0

/-- Total characters over the session log. -/
def totalContentChars (msgs : List FlushMsg) : Nat :=
  (msgs.map flushMsgChars).sum

/-- `estimateSessionTokens`: `Math.floor(totalChars / 4)`. -/
def estimateSessionTokens (msgs : List FlushMsg) : Nat :=
  totalContentChars msgs / 4

/-- The decision made by `maybeRunMemoryFlush`: `true` iff the flush prompt is
injected (the session-prompt call is attempted). -/
def maybeRunMemoryFlushInjects (msgs : List FlushMsg) : Bool :=
  if msgs.length < 6 then false
  else
    let threshold :=
      DEFAULT_CONTEXT_WINDOW - COMPACTION_RESERVE_TOKENS - MEMORY_FLUSH_SOFT_TOKENS
    if estimateSessionTokens msgs < threshold then false
    else true

/-! ## History sanitizer (src/src/agent/history.ts) -/

def DEFAULT_HISTORY_LIMIT : Int := 100

/-- A content block of an `AgentMessage`; only the fields the sanitizer
inspects (`type`, `id`, `tool_use_id`) are carried. -/
structure ContentBlock where
  type : Option String
  id : Option String
  tool_use_id : Option String
deriving DecidableEq, Repr

/-- `AgentMessage.content` — a plain string, an array of blocks, or absent.
The sanitizer only distinguishes array content from everything else. -/
inductive MsgContent
  | str (s : String)
  | blocks (bs : List ContentBlock)
  | missing
deriving DecidableEq, Repr

/-- A session message as the sanitizer sees it. -/
structure AgentMessage where
  role : String
  content : MsgContent
deriving DecidableEq, Repr

/-- `limitHistoryTurns`: keep only the last `limit` user turns (default 100)
and everything from the earliest retained user turn on. -/
def limitHistoryTurns (messages : List AgentMessage) (limit : Option Int) :
    List AgentMessage :=
  let effectiveLimit := limit.getD DEFAULT_HISTORY_LIMIT
  if effectiveLimit ≤ 0 ∨ messages.isEmpty then messages
  else
    let userIdxs :=
      (messages.enum.filter (fun p => p.2.role == "user")).map (fun p => p.1)
    if userIdxs.length ≤ effectiveLimit.toNat then messages
    else messages.drop (userIdxs.getD (userIdxs.length - effectiveLimit.toNat) 0)

/-- The `tool_use` id contributed by one block (when `type === "tool_use"` and
`id` is a string). -/
def useId (b : ContentBlock) : Option String :=
  if b.type = some "tool_use" then b.id else none

/-- The `tool_result` reference contributed by one block. -/
def resultId (b : ContentBlock) : Option String :=
  if b.type = some "tool_result" then b.tool_use_id else none

/-- Tool-use ids appearing in one message (empty for non-array content). -/
def msgUseIds (m : AgentMessage) : List String :=
  match m.content with
  | .blocks bs => bs.filterMap useId
  | _ => []

/-- Tool-result references appearing in one message. -/
def msgResultIds (m : AgentMessage) : List String :=
  match m.content with
  | .blocks bs => bs.filterMap resultId
  | _ => []

/-- All `tool_use` ids in the whole message list (first collection pass). -/
def collectToolUseIds (messages : List AgentMessage) : List String :=
  (messages.map msgUseIds).flatten

/-- All `tool_result` references in the whole message list. -/
def collectToolResultIds (messages : List AgentMessage) : List String :=
  (messages.map msgResultIds).flatten

/-- The per-block keep test of the repair pass. -/
def keepBlock (orphanedToolUseIds orphanedToolResultIds : List String)
    (b : ContentBlock) : Bool :=
  !(decide (b.type = some "tool_use") &&
      (match b.id with
       | some i => orphanedToolUseIds.contains i
       | none => false)) &&
  !(decide (b.type = some "tool_result") &&
      (match b.tool_use_id with
       | some i => orphanedToolResultIds.contains i
       | none => false))

/-- One message's fate in the repair pass: non-array content passes through;
array content is filtered and the message dropped if nothing remains. -/
def repairMsg (orphanedToolUseIds orphanedToolResultIds : List String)
    (m : AgentMessage) : Option AgentMessage :=
  match m.content with
  | .blocks bs =>
      let filtered := bs.filter (keepBlock orphanedToolUseIds orphanedToolResultIds)
      if filtered.isEmpty then none
      else some { m with content := .blocks filtered }
  | _ => some m

/-- The `tool_use` ids with no matching `tool_result` anywhere in the list. -/
def orphanedUseIds (messages : List AgentMessage) : List String :=
  (collectToolUseIds messages).filter
    (fun i => !(collectToolResultIds messages).contains i)

/-- The `tool_result` references with no matching `tool_use` anywhere. -/
def orphanedResultIds (messages : List AgentMessage) : List String :=
  (collectToolResultIds messages).filter
    (fun i => !(collectToolUseIds messages).contains i)

/-- `sanitizeToolUseResultPairing`: drop orphaned `tool_use` / `tool_result`
blocks (ids with no counterpart anywhere in the list) and messages whose
content becomes empty; when there are no orphans, return the input as-is. -/
def sanitizeToolUseResultPairing (messages : List AgentMessage) :
    List AgentMessage :=
  if (orphanedUseIds messages).isEmpty && (orphanedResultIds messages).isEmpty then
    messages
  else messages.filterMap (repairMsg (orphanedUseIds messages) (orphanedResultIds messages))

/-- `sanitizeSessionHistory`: limit turns, then repair pairing. -/
def sanitizeSessionHistory (messages : List AgentMessage) (historyLimit : Option Int) :
    List AgentMessage :=
  sanitizeToolUseResultPairing (limitHistoryTurns messages historyLimit)

/-! Claim C2 speaks of matching in the *immediately following non-assistant
message* (resp. immediately preceding assistant message).  The next
definitions state that locality property, taken from the claim's words, to be
compared with what `sanitizeSessionHistory` actually guarantees. -/

/-- The first non-assistant message strictly after index `i`. -/
def firstNonAssistantAfter (messages : List AgentMessage) (i : Nat) :
    Option AgentMessage :=
  (messages.drop (i + 1)).find? (fun m => m.role != "assistant")

/-- The nearest assistant message strictly before index `i`. -/
def lastAssistantBefore (messages : List AgentMessage) (i : Nat) :
    Option AgentMessage :=
  (messages.take i).reverse.find? (fun m => m.role == "assistant")

/-- Locality property asserted by the claim: every `tool_use` in an assistant
message is answered in the immediately following non-assistant message, and
every `tool_result` refers to the immediately preceding assistant message. -/
def locallyPaired (messages : List AgentMessage) : Bool :=
  messages.enum.all (fun p =>
    (if p.2.role == "assistant" then
      (msgUseIds p.2).all (fun u =>
        match firstNonAssistantAfter messages p.1 with
        | some m => (msgResultIds m).contains u
        | none => false)
     else true) &&
    (msgResultIds p.2).all (fun u =>
      match lastAssistantBefore messages p.1 with
      | some m => (msgUseIds m).contains u
      | none => false))

/-! ## Subagent registry (src/src/agent/compaction.ts part 2, `SubagentRegistry`)
and the subagent tool's spawn action (src/unnamed/part_009). -/

def MAX_SPAWN_DEPTH : Nat := 2

def MAX_CHILDREN_PER_SESSION : Nat := 5

def MAX_CONCURRENT_TOTAL : Nat := 10

/-- `s.slice(0, n)` at the character level (`String.take` does not reduce in
the kernel; this does, and has the same meaning for the strings involved). -/
def strSlice (s : String) (n : Nat) : String :=
  ⟨s.data.take n⟩

inductive RunStatus
  | running
  | ok
  | error
  | killed
deriving DecidableEq, Repr

/-- A `SubagentRunRecord` as persisted by the registry. -/
structure SubagentRunRecord where
  runId : String
  childSessionKey : String
  parentSessionKey : String
  parentChannelId : String
  task : String
  label : Option String
  depth : Nat
  status : RunStatus
  result : Option String
  error : Option String
  createdAt : Int
  endedAt : Option Int
deriving DecidableEq, Repr

/-- The registry's `runs` map, in insertion order. -/
abbrev SubagentRuns := List SubagentRunRecord

/-- `Map.set`: replace an existing key in place or append. -/
def setRun (runs : SubagentRuns) (r : SubagentRunRecord) : SubagentRuns :=
  if runs.any (fun x => x.runId == r.runId) then
    runs.map (fun x => if x.runId == r.runId then r else x)
  else runs ++ [r]

/-- `SubagentRegistry.register`. -/
def registerRun (runs : SubagentRuns) (r : SubagentRunRecord) : SubagentRuns :=
  setRun runs r

/-- `SubagentRegistry.markComplete` (`status` only ever `ok` or `error`;
callers pass `"ok" | "error"`). -/
def markComplete (runs : SubagentRuns) (runId result : String)
    (status : RunStatus) (now : Int) : SubagentRuns :=
  runs.map (fun r =>
    if r.runId == runId then
      { r with
        status := status
        result := some (strSlice result 10000)
        endedAt := some now
        error := if status = .error then some (strSlice result 2000) else r.error }
    else r)

/-- `SubagentRegistry.kill`: `running → killed`, abort, persist. -/
def killRun (runs : SubagentRuns) (runId : String) (now : Int) : SubagentRuns :=
  match runs.find? (fun r => r.runId == runId) with
  | some r =>
      if r.status = .running then
        runs.map (fun x =>
          if x.runId == runId then
            { x with
              status := .killed
              error := some "Killed by parent agent"
              endedAt := some now }
          else x)
      else runs
  | none => runs

/-- `SubagentRegistry.cleanup`: drop completed runs older than `maxAgeMs`. -/
def cleanupRuns (runs : SubagentRuns) (now maxAgeMs : Int) : SubagentRuns :=
  runs.filter (fun r =>
    match r.endedAt with
    | some e => decide (now - e ≤ maxAgeMs)
    | none => true)

/-- `SubagentRegistry.load` run on a persisted record list: stale `running`
entries are rewritten as errors (reason "process restart"); note that only
`status`, `error` and `endedAt` are touched — `result` is left as it was. -/
def loadRewriteStale (records : SubagentRuns) (now : Int) : SubagentRuns :=
  records.map (fun r =>
    if r.status = .running then
      { r with
        status := .error
        error := some "Process restarted before completion"
        endedAt := some now }
    else r)

/-- `SubagentRegistry.getDepthForSession`: depth of the first run whose
`childSessionKey` matches, else 0. -/
def getDepthForSession (runs : SubagentRuns) (sessionKey : String) : Nat :=
  match runs.find? (fun r => r.childSessionKey == sessionKey) with
  | some r => r.depth
  | none => 0

/-- `SubagentRegistry.countActiveForSession`. -/
def countActiveForSession (runs : SubagentRuns) (parentSessionKey : String) : Nat :=
  (runs.filter (fun r =>
    r.parentSessionKey == parentSessionKey && r.status == .running)).length

/-- `SubagentRegistry.countActiveTotal`. -/
def countActiveTotal (runs : SubagentRuns) : Nat :=
  (runs.filter (fun r => r.status == .running)).length

/-- Result of `SubagentRegistry.canSpawn`. -/
structure CanSpawnResult where
  allowed : Bool
  reason : Option String
deriving DecidableEq, Repr

/-- `SubagentRegistry.canSpawn`. -/
def canSpawn (runs : SubagentRuns) (parentSessionKey : String) : CanSpawnResult :=
  let depth := getDepthForSession runs parentSessionKey
  if MAX_SPAWN_DEPTH ≤ depth then
    { allowed := false
      reason := some ("Max spawn depth reached (current depth " ++ toString depth
        ++ ", max " ++ toString MAX_SPAWN_DEPTH
        ++ "). You are a leaf worker and cannot spawn further subagents.") }
  else
    let activeChildren := countActiveForSession runs parentSessionKey
    if MAX_CHILDREN_PER_SESSION ≤ activeChildren then
      { allowed := false
        reason := some ("Max children per session reached (" ++ toString activeChildren
          ++ "/" ++ toString MAX_CHILDREN_PER_SESSION ++ ")") }
    else
      let totalActive := countActiveTotal runs
      if MAX_CONCURRENT_TOTAL ≤ totalActive then
        { allowed := false
          reason := some ("Max total concurrent subagents reached (" ++ toString totalActive
            ++ "/" ++ toString MAX_CONCURRENT_TOTAL ++ ")") }
      else { allowed := true, reason := none }

/-- The record `AgentRunner.spawnSubagent` registers before starting the
background run (src/unnamed/part_005, lines 110-132): status `running`,
`createdAt := Date.now()`, no result, no error, no end time. -/
def spawnRecord (task parentSessionKey parentChannelId : String)
    (label : Option String) (uuid : String) (parentDepth : Nat) (now : Int) :
    SubagentRunRecord :=
  { runId := uuid
    childSessionKey := "subagent:" ++ strSlice uuid 8
    parentSessionKey := parentSessionKey
    parentChannelId := parentChannelId
    task := task
    label := label
    depth := parentDepth + 1
    status := .running
    result := none
    error := none
    createdAt := now
    endedAt := none }

/-- `spawnSubagent`'s synchronous effect on the registry. -/
def spawnSubagentRegister (runs : SubagentRuns)
    (task parentSessionKey parentChannelId : String) (label : Option String)
    (uuid : String) (now : Int) : SubagentRuns :=
  registerRun runs
    (spawnRecord task parentSessionKey parentChannelId label uuid
      (getDepthForSession runs parentSessionKey) now)

/-- The JSON payload the subagent tool's `spawn` action returns
(`jsonTextResult` / `textResult` content, structurally). -/
structure SpawnToolResult where
  status : String
  error : Option String
  runId : Option String
  childSessionKey : Option String
deriving DecidableEq, Repr

/-- The `spawn` action of `createSubagentTool` (src/unnamed/part_009,
lines 81-110): missing task → error text; limits exceeded → `forbidden`
without touching the registry; otherwise spawn and report `accepted`. -/
def subagentToolSpawn (runs : SubagentRuns) (sessionKey channelId : String)
    (task : Option String) (label : Option String) (uuid : String) (now : Int) :
    SpawnToolResult × SubagentRuns :=
  match task with
  | none =>
      ({ status := "error", error := some "Error: task is required for spawn action",
         runId := none, childSessionKey := none }, runs)
  | some t =>
      let check := canSpawn runs sessionKey
      if check.allowed then
        let runs' := spawnSubagentRegister runs t sessionKey channelId label uuid now
        ({ status := "accepted", error := none, runId := some uuid,
           childSessionKey := some ("subagent:" ++ strSlice uuid 8) }, runs')
      else
        ({ status := "forbidden", error := check.reason,
           runId := none, childSessionKey := none }, runs)

/-- Registry operations that mutate the run map, for reachability. -/
inductive RegOp
  | spawn (task parentSessionKey parentChannelId : String)
      (label : Option String) (uuid : String)
  | complete (runId result : String) (status : RunStatus)
  | kill (runId : String)
  | cleanup (maxAgeMs : Int)
  | restartLoad

/-- Apply one registry operation at wall-clock time `now`.  `complete` only
ever arrives with `ok` or `error` (the two literals at its call sites);
other statuses are ignored. -/
def applyRegOp (op : RegOp) (now : Int) (runs : SubagentRuns) : SubagentRuns :=
  match op with
  | .spawn task parent channel label uuid =>
      spawnSubagentRegister runs task parent channel label uuid now
  | .complete runId result status =>
      if status = .ok ∨ status = .error then
        markComplete runs runId result status now
      else runs
  | .kill runId => killRun runs runId now
  | .cleanup maxAgeMs => cleanupRuns runs now maxAgeMs
  | .restartLoad => loadRewriteStale runs now

/-- Registry states reachable from the empty registry, with a monotone
wall clock (`Date.now()` does not go backwards). -/
inductive RegReachable : Int → SubagentRuns → Prop
  | init (t : Int) : RegReachable t []
  | step (t t' : Int) (op : RegOp) (s : SubagentRuns) (h : t ≤ t')
      (hs : RegReachable t s) : RegReachable t' (applyRegOp op t' s)

/-! ## Persistence traces (claim C7).  Each persist routine is embedded as the
list of filesystem operations it issues, in order.  `dir` stands for
`path.dirname(target)`, computed by the caller. -/

inductive FsOp
  | mkdirRec (dir : String)
  | writeFile (path : String) (data : String)
  | renameFile (src dst : String)
  | appendFile (path : String) (data : String)
deriving DecidableEq, Repr

/-- `Scheduler.persist` (src/src/scheduler.ts, lines 228-234): mkdir, write
`storePath + ".tmp"`, rename tmp over the store. -/
def schedulerPersistOps (storePath dir storeJson : String) : List FsOp :=
  [.mkdirRec dir,
   .writeFile (storePath ++ ".tmp") storeJson,
   .renameFile (storePath ++ ".tmp") storePath]

/-- `SubagentRegistry.persist` (src/src/agent/compaction.ts, lines 225-233):
mkdir, then a direct write of the store path. -/
def subagentRegistryPersistOps (storePath dir recordsJson : String) : List FsOp :=
  [.mkdirRec dir, .writeFile storePath recordsJson]

/-- `HeartbeatService.saveState` (src/unnamed/part_006, lines 214-221):
mkdir, then a direct write of the state path. -/
def heartbeatSaveStateOps (statePath dir stateJson : String) : List FsOp :=
  [.mkdirRec dir, .writeFile statePath stateJson]

/-- `MemoryConsolidator.saveState` (src/src/index.ts, lines 539-544):
mkdir, then a direct write of the per-session state path. -/
def consolidatorSaveStateOps (filePath dir stateJson : String) : List FsOp :=
  [.mkdirRec dir, .writeFile filePath stateJson]

/-- Atomic tmp-write + rename discipline for a target path: the state reaches
the target only through a rename from a distinct temporary file, and the
target is never written directly — so no partially written target is ever
observable. -/
def writesViaTmpRename (ops : List FsOp) (target : String) : Prop :=
  (∃ tmp data, tmp ≠ target ∧
      FsOp.writeFile tmp data ∈ ops ∧ FsOp.renameFile tmp target ∈ ops) ∧
  ∀ data, FsOp.writeFile target data ∉ ops

/-! ## Memory consolidator (src/src/index.ts, `MemoryConsolidator.consolidate`
and `parseConsolidationResponse`). -/

/-- Index of the first occurrence of `pat` in `s` (at the character level). -/
def firstOccur (pat s : List Char) : Option Nat :=
  (List.range (s.length + 1)).find? (fun k => pat.isPrefixOf (s.drop k))

/-- `String.prototype.trim` at the character level. -/
def trimChars (s : List Char) : List Char :=
  ((s.dropWhile Char.isWhitespace).reverse.dropWhile Char.isWhitespace).reverse

/-- Extract the section between `marker` and `endMarker`, mirroring the lazy
regex `marker\s*\n([\s\S]*?)\nendMarker` followed by `.trim()`: the text
after the first `marker` occurrence up to the next `endMarker` occurrence,
trimmed (the regex's mandatory newlines on either side of the group are
whitespace and are folded into the trim).  Empty content becomes `none` as
in the source. -/
def parseSection (s marker endMarker : String) : Option String :=
  match firstOccur marker.data s.data with
  | none => none
  | some k =>
      let tail := s.data.drop (k + marker.data.length)
      match firstOccur endMarker.data tail with
      | none => none
      | some k2 =>
          let t := trimChars (tail.take k2)
          if t.isEmpty then none else some (String.mk t)

/-- `parseConsolidationResponse`. -/
def parseConsolidationResponse (response : String) : Option String × Option String :=
  (parseSection response "===MEMORY===" "===END_MEMORY===",
   parseSection response "===HISTORY===" "===END_HISTORY===")

/-- A session message as the consolidator formats it. -/
structure ConsMsg where
  role : String
  content : String
deriving DecidableEq, Repr

/-- Outcome of one `consolidate` call that returned normally. -/
structure ConsolidateResult where
  persistedCount : Nat
  memoryUpdated : Bool
  historyAppended : Bool
deriving DecidableEq, Repr

/-- `MemoryConsolidator.consolidate`, with the LLM call and the two
`memory/` writes as explicit outcomes.  `persistedCount` is the
`lastConsolidatedMessageCount` on disk after the call; an `Except.error`
means a write threw and the exception propagated before `saveState`, so the
persisted count is still `lastCount`.  (`saveState` itself is modelled as
succeeding.) -/
def consolidate (lastCount : Nat) (messages : List ConsMsg) (currentCount : Nat)
    (llmResponse : Except String String) (memWriteOk histWriteOk : Bool) :
    Except String ConsolidateResult :=
  if (messages.drop lastCount).isEmpty then .ok ⟨lastCount, false, false⟩
  else
    match llmResponse with
    | .error _ => .ok ⟨lastCount, false, false⟩
    | .ok response =>
        match parseConsolidationResponse response with
        | (some _, some _) =>
            if memWriteOk then
              if histWriteOk then .ok ⟨currentCount, true, true⟩
              else .error "HISTORY.md write failed"
            else .error "MEMORY.md write failed"
        | (some _, none) =>
            if memWriteOk then .ok ⟨currentCount, true, false⟩
            else .error "MEMORY.md write failed"
        | (none, some _) =>
            if histWriteOk then .ok ⟨currentCount, false, true⟩
            else .error "HISTORY.md write failed"
        | (none, none) => .ok ⟨currentCount, false, false⟩

/-! ## Scheduler (src/src/scheduler.ts).

The `Scheduler` class becomes a state type plus pure transition functions.
External effects are explicit parameters: `now` is `Date.now()`; `cronValid`
tells whether `new Cron(expr)` succeeded; `cronNext` is what
`cron.nextRun()` returned.  The three timer maps (`timers`, `cronInstances`,
`everyTimers`) are modelled together as the set `armed` of job ids holding a
registered handle (a fired one-shot `at` timer keeps its — now dead — map
entry, matching the source, which never deletes it).  `pendingQueue` holds
job ids; the source holds object references, so a job removed from the store
while queued would still run there, but that run reads and writes nothing in
the store, which is what the id-lookup model yields. -/

inductive Schedule
  | atTime (atMs : Int)
  | cron (expr : String) (tz : Option String)
  | every (intervalMs : Int)
deriving DecidableEq, Repr

inductive JobPayload
  | systemEvent (text : String)
  | agentTurn (message : String)
deriving DecidableEq, Repr

structure JobState where
  nextRunAtMs : Option Int
  consecutiveFailures : Nat
  lastRetryAtMs : Option Int
deriving DecidableEq, Repr

structure ScheduledJob where
  id : String
  name : String
  description : Option String
  enabled : Bool
  deleteAfterRun : Bool
  schedule : Schedule
  payload : JobPayload
  sessionKey : String
  createdAt : Int
  lastRunAt : Option Int
  lastError : Option String
  runCount : Nat
  state : JobState
deriving DecidableEq, Repr

structure SchedulerOptions where
  maxConcurrency : Nat := 3
  jobTimeoutMs : Int := 300000
  maxConsecutiveFailures : Nat := 5
  maxRetries : Nat := 2
  retryBaseDelayMs : Int := 5000
deriving DecidableEq, Repr

structure SchedulerState where
  jobs : List ScheduledJob
  armed : List String
  runningJobs : List String
  pendingQueue : List String
deriving DecidableEq, Repr

/-- The scheduler right after construction (empty store). -/
def SchedulerState.init : SchedulerState :=
  { jobs := [], armed := [], runningJobs := [], pendingQueue := [] }

/-- `Scheduler.computeNextRun`; `cronNext` stands for the croner call (its
`catch` branch and a `null` `nextRun()` both yield `none`). -/
def computeNextRun (j : ScheduledJob) (now : Int) (cronNext : Option Int) :
    ScheduledJob :=
  match j.schedule with
  | .atTime atMs => { j with state := { j.state with nextRunAtMs := some atMs } }
  | .cron _ _ => { j with state := { j.state with nextRunAtMs := cronNext } }
  | .every intervalMs =>
      { j with state := { j.state with nextRunAtMs := some (now + intervalMs) } }

/-- `Scheduler.disarm`. -/
def disarmId (s : SchedulerState) (id : String) : SchedulerState :=
  { s with armed := s.armed.filter (fun a => a != id) }

/-- The synchronous start of `executeJob` (its first two lines):
`lastRunAt = now; runCount++`. -/
def beginBookkeep (j : ScheduledJob) (now : Int) : ScheduledJob :=
  { j with lastRunAt := some now, runCount := j.runCount + 1 }

/-- Admission of a job into the running set together with the synchronous
start of its `executeJob` call.  The returned list carries the job record at
the moment its execution begins (used to state claim C3). -/
def admitRun (s : SchedulerState) (id : String) (now : Int) :
    SchedulerState × List ScheduledJob :=
  let s' := { s with
    runningJobs :=
      if s.runningJobs.contains id then s.runningJobs else s.runningJobs ++ [id] }
  match s.jobs.find? (fun j => j.id == id) with
  | some j =>
      ({ s' with
          jobs := s'.jobs.map (fun x => if x.id == id then beginBookkeep x now else x) },
        [j])
  | none => (s', [])

/-- `Scheduler.enqueueExecution`. -/
def enqueueExecution (opts : SchedulerOptions) (s : SchedulerState) (id : String)
    (now : Int) : SchedulerState × List ScheduledJob :=
  if s.runningJobs.length < opts.maxConcurrency then admitRun s id now
  else if s.pendingQueue.contains id then (s, [])
  else ({ s with pendingQueue := s.pendingQueue ++ [id] }, [])

/-- `Scheduler.drainQueue` (fuel-recursive on the queue length). -/
def drainGo (opts : SchedulerOptions) (now : Int) :
    Nat → SchedulerState → SchedulerState × List ScheduledJob
  | 0, s => (s, [])
  | fuel + 1, s =>
      match s.pendingQueue with
      | [] => (s, [])
      | next :: restQ =>
          if s.runningJobs.length < opts.maxConcurrency then
            let (s1, fired) := admitRun { s with pendingQueue := restQ } next now
            let (s2, more) := drainGo opts now fuel s1
            (s2, fired ++ more)
          else (s, [])

def drainQueue (opts : SchedulerOptions) (s : SchedulerState) (now : Int) :
    SchedulerState × List ScheduledJob :=
  drainGo opts now s.pendingQueue.length s

/-- `Scheduler.arm`: disarm, then register the proper handle; an `at` job
whose target is already due is enqueued immediately; an invalid cron
expression logs and registers nothing. -/
def armJob (opts : SchedulerOptions) (s : SchedulerState) (j : ScheduledJob)
    (now : Int) (cronValid : Bool) : SchedulerState × List ScheduledJob :=
  let s0 := disarmId s j.id
  match j.schedule with
  | .atTime atMs =>
      if atMs - now ≤ 0 then enqueueExecution opts s0 j.id now
      else ({ s0 with armed := s0.armed ++ [j.id] }, [])
  | .cron _ _ =>
      if cronValid then ({ s0 with armed := s0.armed ++ [j.id] }, []) else (s0, [])
  | .every _ => ({ s0 with armed := s0.armed ++ [j.id] }, [])

/-- Outcome of one `executeWithTimeout` call. -/
inductive AttemptOutcome
  | ok
  | err (msg : String)

/-- `errMsg.includes("timed out")`. -/
def includesTimedOut (msg : String) : Bool :=
  (msg.splitOn "timed out").length != 1

/-- The retry loop of `executeJob` (lines 377-401): returns
`(succeeded, lastError)`.  `outcomes` gives the result of the attempt with
the given index; fuel starts at `maxRetries + 1`, enough for every loop
iteration. -/
def runAttemptsGo (maxRetries : Nat) (outcomes : Nat → AttemptOutcome) :
    Nat → Nat → Bool × Option String
  | _, 0 => (false, none)
  | attempt, fuel + 1 =>
      match outcomes attempt with
      | .ok => (true, none)
      | .err m =>
          if includesTimedOut m then (false, some m)
          else if attempt < maxRetries then
            runAttemptsGo maxRetries outcomes (attempt + 1) fuel
          else (false, some m)

def runAttempts (opts : SchedulerOptions) (outcomes : Nat → AttemptOutcome) :
    Bool × Option String :=
  runAttemptsGo opts.maxRetries outcomes 0 (opts.maxRetries + 1)

/-- The per-job outcome bookkeeping of `executeJob`: on success clear
`lastError` and reset `consecutiveFailures`; on overall failure record the
last error, bump the failure count, and auto-disable at the cap. -/
def finishJobUpdate (opts : SchedulerOptions) (j : ScheduledJob)
    (outcomes : Nat → AttemptOutcome) (now : Int) : ScheduledJob :=
  if (runAttempts opts outcomes).1 then
    { j with lastError := none, state := { j.state with consecutiveFailures := 0 } }
  else
    { j with
      lastError := (runAttempts opts outcomes).2,
      state := { j.state with
        consecutiveFailures := j.state.consecutiveFailures + 1,
        lastRetryAtMs := some now },
      enabled := if opts.maxConsecutiveFailures ≤ j.state.consecutiveFailures + 1
                 then false else j.enabled }

/-- Whether this firing crossed the auto-disable threshold. -/
def autoDisabledAfter (opts : SchedulerOptions) (j : ScheduledJob)
    (outcomes : Nat → AttemptOutcome) : Bool :=
  !(runAttempts opts outcomes).1 &&
    decide (opts.maxConsecutiveFailures ≤ j.state.consecutiveFailures + 1)

/-- The tail of `executeJob` after the retry loop: failure bookkeeping with
auto-disable, then delete-after-run or next-run recomputation, then persist. -/
def finishExecute (opts : SchedulerOptions) (s : SchedulerState) (id : String)
    (outcomes : Nat → AttemptOutcome) (now : Int) (cronNext : Option Int) :
    SchedulerState :=
  match s.jobs.find? (fun j => j.id == id) with
  | none => s
  | some j =>
      let j1 := finishJobUpdate opts j outcomes now
      let s1 : SchedulerState := { s with
        jobs := s.jobs.map (fun x => if x.id == id then j1 else x)
        armed := if autoDisabledAfter opts j outcomes then
            s.armed.filter (fun a => a != id)
          else s.armed }
      if j1.deleteAfterRun then
        { s1 with
          jobs := s1.jobs.filter (fun x => x.id != id)
          armed := s1.armed.filter (fun a => a != id) }
      else
        { s1 with
          jobs := s1.jobs.map
            (fun x => if x.id == id then computeNextRun j1 now cronNext else x) }

/-- The safety tick's per-job scan (lines 439-451), folded over a snapshot of
the job ids while each condition is checked against the current state. -/
def tickGo (opts : SchedulerOptions) (now : Int) :
    List String → SchedulerState → SchedulerState × List ScheduledJob
  | [], s => (s, [])
  | id :: rest, s =>
      let fire :=
        match s.jobs.find? (fun j => j.id == id) with
        | some j =>
            j.enabled &&
            (match j.schedule with
             | .atTime atMs => decide (atMs ≤ now)
             | _ => false) &&
            !s.armed.contains id && !s.runningJobs.contains id
        | none => false
      if fire then
        let (s1, fired) := enqueueExecution opts s id now
        let (s2, more) := tickGo opts now rest s1
        (s2, fired ++ more)
      else tickGo opts now rest s

/-- `recoverMissedJobs` folded the same way (enabled past-due `at` jobs with
`runCount == 0` are enqueued at startup). -/
def recoverGo (opts : SchedulerOptions) (now : Int) :
    List String → SchedulerState → SchedulerState × List ScheduledJob
  | [], s => (s, [])
  | id :: rest, s =>
      let fire :=
        match s.jobs.find? (fun j => j.id == id) with
        | some j =>
            j.enabled &&
            (match j.schedule with
             | .atTime atMs => decide (atMs ≤ now)
             | _ => false) &&
            j.runCount == 0
        | none => false
      if fire then
        let (s1, fired) := enqueueExecution opts s id now
        let (s2, more) := recoverGo opts now rest s1
        (s2, fired ++ more)
      else recoverGo opts now rest s

/-- `armAll` folded over the job ids. -/
def armAllGo (opts : SchedulerOptions) (now : Int) (cronValidF : String → Bool) :
    List String → SchedulerState → SchedulerState × List ScheduledJob
  | [], s => (s, [])
  | id :: rest, s =>
      match s.jobs.find? (fun j => j.id == id) with
      | some j =>
          if j.enabled then
            let (s1, fired) := armJob opts s j now (cronValidF id)
            let (s2, more) := armAllGo opts now cronValidF rest s1
            (s2, fired ++ more)
          else armAllGo opts now cronValidF rest s
      | none => armAllGo opts now cronValidF rest s

/-- A patch accepted by `Scheduler.update`. -/
structure JobPatch where
  name : Option String := none
  description : Option String := none
  enabled : Option Bool := none
  schedule : Option Schedule := none
  payload : Option JobPayload := none
deriving DecidableEq, Repr

/-- The operations that drive the scheduler, each applied at a wall-clock
instant.  `armedFire` is a registered timer / croner / interval callback
firing for the job id it closed over; `runNowBegin` is the synchronous start
of `Scheduler.runNow`; `finishRun` is the completion of an in-flight
`executeJob` (with `viaQueue` telling whether the `enqueueExecution`
`finally` — running-set removal plus queue drain — wraps it, which is not the
case for `runNow`); `restart` is a process restart: load the persisted jobs
(identity on a live store), recover missed `at` jobs, arm everything
enabled. -/
inductive SchedOp
  | add (name : String) (description : Option String) (schedule : Schedule)
      (payload : JobPayload) (sessionKey : String) (deleteAfterRun : Option Bool)
      (uuid : String) (cronValid : Bool) (cronNext : Option Int)
  | removeOp (id : String)
  | updateOp (id : String) (patch : JobPatch) (cronValid : Bool) (cronNext : Option Int)
  | armedFire (id : String) (cronNext : Option Int)
  | safetyTick
  | runNowBegin (id : String)
  | finishRun (id : String) (outcomes : Nat → AttemptOutcome) (cronNext : Option Int)
      (viaQueue : Bool)
  | restart (cronValidF : String → Bool)

/-- One-shots auto-delete: `input.deleteAfterRun ?? input.schedule.kind === "at"`. -/
def defaultDeleteAfterRun (schedule : Schedule) : Bool :=
  match schedule with
  | .atTime _ => true
  | _ => false

/-- Applying one operation; the second component carries the records of the
jobs whose `executeJob` call begins during the operation. -/
def schedFires (opts : SchedulerOptions) (op : SchedOp) (now : Int)
    (s : SchedulerState) : SchedulerState × List ScheduledJob :=
  match op with
  | .add name description schedule payload sessionKey deleteAfterRun uuid
      cronValid cronNext =>
      let job : ScheduledJob :=
        { id := uuid
          name := name
          description := description
          enabled := true
          deleteAfterRun := deleteAfterRun.getD (defaultDeleteAfterRun schedule)
          schedule := schedule
          payload := payload
          sessionKey := sessionKey
          createdAt := now
          lastRunAt := none
          lastError := none
          runCount := 0
          state := { nextRunAtMs := none, consecutiveFailures := 0, lastRetryAtMs := none } }
      let job := computeNextRun job now cronNext
      armJob opts { s with jobs := s.jobs ++ [job] } job now cronValid
  | .removeOp id =>
      if s.jobs.any (fun j => j.id == id) then
        let s1 := disarmId s id
        ({ s1 with jobs := s1.jobs.filter (fun j => j.id != id) }, [])
      else (s, [])
  | .updateOp id patch cronValid cronNext =>
      match s.jobs.find? (fun j => j.id == id) with
      | none => (s, [])
      | some j =>
          let j1 := { j with
            name := patch.name.getD j.name
            description :=
              match patch.description with | some d => some d | none => j.description }
          let j2 :=
            match patch.enabled with
            | some v =>
                { j1 with
                  enabled := v
                  state :=
                    if v then { j1.state with consecutiveFailures := 0 } else j1.state }
            | none => j1
          let j3 := { j2 with
            schedule := patch.schedule.getD j2.schedule
            payload := patch.payload.getD j2.payload }
          let j4 := computeNextRun j3 now cronNext
          let s1 := { s with jobs := s.jobs.map (fun x => if x.id == id then j4 else x) }
          let s2 := disarmId s1 id
          if j4.enabled then armJob opts s2 j4 now cronValid else (s2, [])
  | .armedFire id cronNext =>
      if s.armed.contains id then
        match s.jobs.find? (fun j => j.id == id) with
        | some j =>
            match j.schedule with
            | .atTime _ => enqueueExecution opts s id now
            | .cron _ _ =>
                let s1 := { s with
                  jobs := s.jobs.map
                    (fun x => if x.id == id then computeNextRun x now cronNext else x) }
                enqueueExecution opts s1 id now
            | .every _ =>
                let s1 := { s with
                  jobs := s.jobs.map
                    (fun x => if x.id == id then computeNextRun x now cronNext else x) }
                enqueueExecution opts s1 id now
        | none => (s, [])
      else (s, [])
  | .safetyTick => tickGo opts now (s.jobs.map (fun j => j.id)) s
  | .runNowBegin id =>
      match s.jobs.find? (fun j => j.id == id) with
      | some j =>
          ({ s with
              jobs := s.jobs.map (fun x => if x.id == id then beginBookkeep x now else x) },
            [j])
      | none => (s, [])
  | .finishRun id outcomes cronNext viaQueue =>
      let s1 := finishExecute opts s id outcomes now cronNext
      if viaQueue then
        let s2 := { s1 with runningJobs := s1.runningJobs.filter (fun a => a != id) }
        drainQueue opts s2 now
      else (s1, [])
  | .restart cronValidF =>
      let s0 := { s with armed := [], runningJobs := [], pendingQueue := [] }
      let (s1, f1) := recoverGo opts now (s0.jobs.map (fun j => j.id)) s0
      let (s2, f2) := armAllGo opts now cronValidF (s1.jobs.map (fun j => j.id)) s1
      (s2, f1 ++ f2)

def applySchedOp (opts : SchedulerOptions) (op : SchedOp) (now : Int)
    (s : SchedulerState) : SchedulerState :=
  (schedFires opts op now s).1

/-- `randomUUID()` freshness: an `add` never reuses a live job id.  All other
operations carry no side condition. -/
def WellFormedOp (s : SchedulerState) : SchedOp → Prop
  | .add _ _ _ _ _ _ uuid _ _ => ∀ j ∈ s.jobs, j.id ≠ uuid
  | _ => True

/-- Scheduler states reachable from an empty store. -/
inductive SchedReachable (opts : SchedulerOptions) : SchedulerState → Prop
  | init : SchedReachable opts SchedulerState.init
  | step (s : SchedulerState) (op : SchedOp) (now : Int)
      (hwf : WellFormedOp s op) (h : SchedReachable opts s) :
      SchedReachable opts (applySchedOp opts op now s)

/-- The predicate C4 needs on one operation: it is the explicit
`update(id, { enabled: true })` path for the given job id. -/
def opEnablesId (op : SchedOp) (id : String) : Prop :=
  match op with
  | .updateOp uid patch _ _ => uid = id ∧ patch.enabled = some true
  | _ => False

/-! ### Claims C3/C4: scheduler invariants.

`jobCore` projects the fields the invariants talk about; most scheduler
operations only touch bookkeeping fields (`lastRunAt`, `runCount`,
`nextRunAtMs`, queues), which `jobCore` ignores. -/

def jobCore (j : ScheduledJob) : String × Bool × Nat :=
  (j.id, j.enabled, j.state.consecutiveFailures)

/-- The claim-C4 state invariant (plus the bookkeeping facts that make it
inductive): job ids are distinct (`randomUUID`), armed jobs are enabled, and
a job at or beyond the failure cap is disabled and disarmed. -/
def schedInv (opts : SchedulerOptions) (s : SchedulerState) : Prop :=
  (s.jobs.map (fun j => j.id)).Nodup ∧
  (∀ j ∈ s.jobs, j.id ∈ s.armed → j.enabled = true) ∧
  (∀ j ∈ s.jobs, opts.maxConsecutiveFailures ≤ j.state.consecutiveFailures →
    j.enabled = false ∧ j.id ∉ s.armed)

/-! ## Per-session serialization of `AgentRunner.handleMessage`
(src/unnamed/part_005 lines 426-454; identical in src/unnamed/part_004).

For one fixed sessionKey, each concurrent `handleMessage` call executes:

1. read `activeSessions.get(key)`; if an entry exists, `await` it;
2. call `_handleMessage` (the run begins) and store its promise in the map
   — these happen in one synchronous block, hence one atomic step;
3. on completion of its own run, settle its promise and delete the map
   entry.

Each call is a process with a phase; `inflight` is the map entry (the index
of the call whose promise is stored); `settled` are the indices whose run
promise has settled.  JavaScript's run-to-completion makes every step
atomic.  The `finally`-delete runs in the finisher's own continuation, which
the microtask queue schedules before any waiter resumes, i.e. while the map
still holds the finisher's promise; it is therefore modelled as removing the
entry exactly when it is still the finisher's own. -/

inductive CallPhase
  | arrived
  | waiting (p : Nat)
  | running
  | done
deriving DecidableEq, Repr

structure RunnerState where
  phases : List CallPhase
  inflight : Option Nat
  settled : List Nat
deriving DecidableEq, Repr

/-- `n` calls to `handleMessage` with the same sessionKey, none started yet. -/
def initRunner (n : Nat) : RunnerState :=
  { phases := List.replicate n .arrived, inflight := none, settled := [] }

/-- One atomic step of one of the calls. -/
inductive RunnerStep : RunnerState → RunnerState → Prop
  | start (s : RunnerState) (i : Nat)
      (hi : s.phases[i]? = some .arrived) (hin : s.inflight = none) :
      RunnerStep s ⟨s.phases.set i .running, some i, s.settled⟩
  | wait (s : RunnerState) (i p : Nat)
      (hi : s.phases[i]? = some .arrived) (hin : s.inflight = some p) :
      RunnerStep s ⟨s.phases.set i (.waiting p), s.inflight, s.settled⟩
  | wake (s : RunnerState) (i p : Nat)
      (hi : s.phases[i]? = some (.waiting p)) (hp : p ∈ s.settled) :
      RunnerStep s ⟨s.phases.set i .running, some i, s.settled⟩
  | finish (s : RunnerState) (i : Nat)
      (hi : s.phases[i]? = some .running) :
      RunnerStep s
        ⟨s.phases.set i .done,
         if s.inflight = some i then none else s.inflight,
         i :: s.settled⟩

/-- States reachable by `n` concurrent same-key calls. -/
inductive RunnerReachable (n : Nat) : RunnerState → Prop
  | init : RunnerReachable n (initRunner n)
  | step (s s' : RunnerState) (h : RunnerReachable n s) (hs : RunnerStep s s') :
      RunnerReachable n s'

/-- The serialization property claimed: at most one run of the sessionKey is
in flight. -/
def atMostOneRunning (s : RunnerState) : Prop :=
  ∀ (i j : Nat), s.phases[i]? = some CallPhase.running →
    s.phases[j]? = some CallPhase.running → i = j

/-- The inductive invariant of the two-call system: lengths are fixed, a
running call is exactly the one whose promise the map holds, a waiter never
waits on itself, a settled promise belongs to a finished call, and the map
entry (if any) points at a started call. -/
def runnerInv (s : RunnerState) : Prop :=
  s.phases.length = 2 ∧
  (∀ i : Nat, s.phases[i]? = some CallPhase.running → s.inflight = some i) ∧
  (∀ (i p : Nat), s.phases[i]? = some (CallPhase.waiting p) → p ≠ i) ∧
  (∀ p ∈ s.settled, s.phases[p]? = some CallPhase.done) ∧
  (∀ q : Nat, s.inflight = some q →
    s.phases[q]? = some CallPhase.running ∨ s.phases[q]? = some CallPhase.done)

/-! ## Concrete inputs used by counterexamples and witnesses -/

/-- A text block of 50004 characters, 4 over the default cap. -/
def c6Block : ToolBlock := .text (List.replicate 50004 'a')

/-- A small text block, within the cap. -/
def c6SmallBlock : ToolBlock := .text ['h', 'i']

/-- Three messages: an assistant `tool_use "a"`, an unrelated user message
immediately after it, and a later user message carrying the matching
`tool_result "a"`.  Matching exists globally but not in the immediately
following message. -/
def c2Messages : List AgentMessage :=
  [⟨"assistant", .blocks [⟨some "tool_use", some "a", none⟩]⟩,
   ⟨"user", .blocks [⟨none, none, none⟩]⟩,
   ⟨"user", .blocks [⟨some "tool_result", none, some "a"⟩]⟩]

/-- A registry in which session `p` is itself a child at the depth cap. -/
def c9Runs : SubagentRuns :=
  [{ runId := "r0", childSessionKey := "p", parentSessionKey := "root",
     parentChannelId := "ch", task := "t", label := none, depth := 2,
     status := .ok, result := some "done", error := none,
     createdAt := 0, endedAt := some 1 }]

/-- A registry holding one freshly spawned run (registered at time 0). -/
def c5Spawned : SubagentRuns :=
  applyRegOp (.spawn "t" "parent" "chan" none "u1") 0 []

/-- The same registry after a process restart at time 1: the stale `running`
record is rewritten. -/
def c5State : SubagentRuns := applyRegOp .restartLoad 1 c5Spawned

/-- The same registry when instead the run completed normally at time 5. -/
def c5Complete : SubagentRuns :=
  applyRegOp (.complete "u1" "res" .ok) 5 c5Spawned

/-- The record `c5Complete` holds. -/
def c5Rec : SubagentRunRecord :=
  { runId := "u1", childSessionKey := "subagent:u1", parentSessionKey := "parent",
    parentChannelId := "chan", task := "t", label := none, depth := 1,
    status := .ok, result := some "res", error := none,
    createdAt := 0, endedAt := some 5 }

/-- The state three same-key `handleMessage` calls reach when calls 1 and 2
both awaited call 0's promise and both resumed after it settled: two runs in
flight at once. -/
def c1Bad : RunnerState :=
  { phases := [CallPhase.done, CallPhase.running, CallPhase.running],
    inflight := some 2, settled := [0] }

/-- Adding an interval job (auto-armed on add). -/
def c3AddOp : SchedOp :=
  .add "job" none (.every 10) (.agentTurn "m") "sess" (some false) "job-1"
    true none

/-- Disabling that job through `Scheduler.update`. -/
def c3DisableOp : SchedOp :=
  .updateOp "job-1" { enabled := some false } true none

/-- The store after the add (at time 0). -/
def c3S1 : SchedulerState := applySchedOp {} c3AddOp 0 SchedulerState.init

/-- The store after the disabling update (at time 5): the job is present,
disabled and disarmed. -/
def c3S2 : SchedulerState := applySchedOp {} c3DisableOp 5 c3S1

/-! ## Theorems -/

/-- C10: the pre-compaction memory flush never injects its flush prompt when
the session log has fewer than 6 messages, regardless of the estimate; for
logs of 6 or more messages it injects exactly when
`floor(total text chars / 4) ≥ 176000`, which is context window 200000 minus
reserve 20000 minus soft budget 4000. -/
theorem C10_memory_flush_decision :
    DEFAULT_CONTEXT_WINDOW - COMPACTION_RESERVE_TOKENS - MEMORY_FLUSH_SOFT_TOKENS
        = 176000 ∧
    ∀ msgs : List FlushMsg,
      maybeRunMemoryFlushInjects msgs = true ↔
        6 ≤ msgs.length ∧ 176000 ≤ totalContentChars msgs / 4 := by
  refine ⟨rfl, fun msgs => ?_⟩
  unfold maybeRunMemoryFlushInjects estimateSessionTokens
  have hthr : DEFAULT_CONTEXT_WINDOW - COMPACTION_RESERVE_TOKENS
      - MEMORY_FLUSH_SOFT_TOKENS = 176000 := rfl
  rw [hthr]
  split_ifs with h1 <;> simp <;> try omega

/-- C9: when a spawn request would exceed any limit — parent depth at
`maxDepth = 2`, active children at `maxChildrenPerSession = 5`, or total
active runs at `maxConcurrentTotal = 10` — the subagent tool returns a
result with status `"forbidden"` carrying the structured reason from
`canSpawn`, and the registry is unchanged. -/
theorem C9_spawn_limit_forbidden (runs : SubagentRuns)
    (sessionKey channelId task : String) (label : Option String)
    (uuid : String) (now : Int)
    (h : MAX_SPAWN_DEPTH ≤ getDepthForSession runs sessionKey
        ∨ MAX_CHILDREN_PER_SESSION ≤ countActiveForSession runs sessionKey
        ∨ MAX_CONCURRENT_TOTAL ≤ countActiveTotal runs) :
    (subagentToolSpawn runs sessionKey channelId (some task) label uuid now).1.status
        = "forbidden" ∧
    (subagentToolSpawn runs sessionKey channelId (some task) label uuid now).1.error
        = (canSpawn runs sessionKey).reason ∧
    (canSpawn runs sessionKey).reason ≠ none ∧
    (subagentToolSpawn runs sessionKey channelId (some task) label uuid now).2 = runs := by
  have hallow : (canSpawn runs sessionKey).allowed = false := by
    unfold canSpawn
    dsimp only
    split_ifs with h1 h2 h3 <;> simp_all
  have hreason : (canSpawn runs sessionKey).reason ≠ none := by
    unfold canSpawn
    dsimp only
    split_ifs with h1 h2 h3 <;> simp_all
  refine ⟨?_, ?_, hreason, ?_⟩ <;>
    simp [subagentToolSpawn, hallow]

/-- Concrete check of `C9_spawn_limit_forbidden`: a session at the depth cap
is refused and the registry keeps its single record. -/
theorem C9_spawn_limit_forbidden_witness :
    MAX_SPAWN_DEPTH ≤ getDepthForSession c9Runs "p" ∧
    (subagentToolSpawn c9Runs "p" "ch" (some "task") none "u1" 5).1.status
        = "forbidden" ∧
    (subagentToolSpawn c9Runs "p" "ch" (some "task") none "u1" 5).2 = c9Runs := by
  have h := C9_spawn_limit_forbidden c9Runs "p" "ch" "task" none "u1" 5
    (Or.inl (by decide))
  exact ⟨by decide, h.1, h.2.2.2⟩

/-- Unfolding lemma: a text block within the cap passes through unchanged. -/
theorem truncateBlock_text_le (maxChars : Nat) (t : List Char)
    (h : t.length ≤ maxChars) :
    truncateBlock maxChars (.text t) = .text t := by
  show (if t.length ≤ maxChars then ToolBlock.text t
      else ToolBlock.text (t.take maxChars ++ truncationNote (t.length - maxChars) t.length))
    = ToolBlock.text t
  rw [if_pos h]

/-- Unfolding lemma: an over-cap text block is sliced and annotated. -/
theorem truncateBlock_text_gt (maxChars : Nat) (t : List Char)
    (h : ¬ t.length ≤ maxChars) :
    truncateBlock maxChars (.text t)
      = .text (t.take maxChars ++ truncationNote (t.length - maxChars) t.length) := by
  show (if t.length ≤ maxChars then ToolBlock.text t
      else ToolBlock.text (t.take maxChars ++ truncationNote (t.length - maxChars) t.length))
    = ToolBlock.text (t.take maxChars ++ truncationNote (t.length - maxChars) t.length)
  rw [if_neg h]

/-- C6 as stated fails: truncating a block the wrapper has already truncated
does not reproduce it — the appended note pushes the text back over
`maxChars` (default 50000), so a second application slices the note off and
appends a different one.  Shown at a 50004-character block. -/
theorem C6_truncation_not_idempotent :
    truncateBlock MAX_TOOL_RESULT_CHARS (truncateBlock MAX_TOOL_RESULT_CHARS c6Block)
      ≠ truncateBlock MAX_TOOL_RESULT_CHARS c6Block := by
  have hnote1 : (truncationNote 4 50004).length = 48 := by decide
  have hnote2 : (truncationNote 48 50048).length = 49 := by decide
  have hM : MAX_TOOL_RESULT_CHARS = 50000 := rfl
  have hc : c6Block = .text (List.replicate 50004 'a') := rfl
  have hX : (List.replicate 50004 'a').length = 50004 := List.length_replicate ..
  have h1 : truncateBlock MAX_TOOL_RESULT_CHARS c6Block
      = .text (List.replicate 50000 'a' ++ truncationNote 4 50004) := by
    rw [hc, hM, truncateBlock_text_gt 50000 _ (by rw [hX]; omega), hX,
      List.take_replicate]
    norm_num
  have hlen1 : (List.replicate 50000 'a' ++ truncationNote 4 50004).length = 50048 := by
    rw [List.length_append, List.length_replicate, hnote1]
  have h2 : truncateBlock MAX_TOOL_RESULT_CHARS
        (ToolBlock.text (List.replicate 50000 'a' ++ truncationNote 4 50004))
      = .text (List.replicate 50000 'a' ++ truncationNote 48 50048) := by
    rw [hM, truncateBlock_text_gt 50000 _ (by rw [hlen1]; omega), hlen1,
      List.take_append_of_le_length (by rw [List.length_replicate]),
      List.take_replicate]
    norm_num
  have hlen2 : (List.replicate 50000 'a' ++ truncationNote 48 50048).length = 50049 := by
    rw [List.length_append, List.length_replicate, hnote2]
  rw [h1, h2]
  intro heq
  injection heq with h
  have hl := congrArg List.length h
  rw [hlen1, hlen2] at hl
  omega

/-- C6 amended: truncation is the identity on blocks whose text fits within
`maxChars` (and on non-text blocks), so it is idempotent exactly there; the
counterexample shows the already-truncated output of a longer block is
truncated again. -/
theorem C6_truncation_idempotent_within_cap (maxChars : Nat) (b : ToolBlock)
    (h : blockTextLength b ≤ maxChars) :
    truncateBlock maxChars (truncateBlock maxChars b) = truncateBlock maxChars b := by
  cases b with
  | text t =>
      have ht : t.length ≤ maxChars := h
      rw [truncateBlock_text_le maxChars t ht, truncateBlock_text_le maxChars t ht]
  | image d m => rfl
  | other => rfl

/-- Concrete check of `C6_truncation_idempotent_within_cap` on a short
block. -/
theorem C6_truncation_idempotent_within_cap_witness :
    blockTextLength c6SmallBlock ≤ MAX_TOOL_RESULT_CHARS ∧
    truncateBlock MAX_TOOL_RESULT_CHARS
        (truncateBlock MAX_TOOL_RESULT_CHARS c6SmallBlock)
      = truncateBlock MAX_TOOL_RESULT_CHARS c6SmallBlock :=
  ⟨by decide,
   C6_truncation_idempotent_within_cap MAX_TOOL_RESULT_CHARS c6SmallBlock (by decide)⟩

/-- C7 as stated fails: `SubagentRegistry.persist` writes its store path
directly — there is no temporary file and no rename. -/
theorem C7_subagent_persist_not_atomic :
    ¬ writesViaTmpRename
        (subagentRegistryPersistOps "subagent-registry.json" "agent" "[]")
        "subagent-registry.json" := by
  intro h
  exact h.2 "[]" (by decide)

/-- C7 amended: only the scheduler job store follows the atomic tmp-write +
rename discipline; the subagent registry, the heartbeat state, and the
consolidation state each serialize the full state but write the target path
directly, and never issue a rename. -/
theorem C7_persistence_disciplines (storePath dir json : String) :
    writesViaTmpRename (schedulerPersistOps storePath dir json) storePath ∧
    FsOp.writeFile storePath json ∈ subagentRegistryPersistOps storePath dir json ∧
    FsOp.writeFile storePath json ∈ heartbeatSaveStateOps storePath dir json ∧
    FsOp.writeFile storePath json ∈ consolidatorSaveStateOps storePath dir json ∧
    (∀ src dst, FsOp.renameFile src dst ∉ subagentRegistryPersistOps storePath dir json) ∧
    (∀ src dst, FsOp.renameFile src dst ∉ heartbeatSaveStateOps storePath dir json) ∧
    (∀ src dst, FsOp.renameFile src dst ∉ consolidatorSaveStateOps storePath dir json) := by
  have htmp : (".tmp" : String).length = 4 := rfl
  have hne : storePath ++ ".tmp" ≠ storePath := by
    intro he
    have hl := congrArg String.length he
    rw [String.length_append, htmp] at hl
    omega
  refine ⟨⟨⟨storePath ++ ".tmp", json, hne, ?_, ?_⟩, ?_⟩, ?_, ?_, ?_, ?_, ?_, ?_⟩
  · simp [schedulerPersistOps]
  · simp [schedulerPersistOps]
  · intro data hmem
    have h : FsOp.writeFile storePath data = FsOp.mkdirRec dir
        ∨ FsOp.writeFile storePath data = FsOp.writeFile (storePath ++ ".tmp") json
        ∨ FsOp.writeFile storePath data
            = FsOp.renameFile (storePath ++ ".tmp") storePath := by
      simpa [schedulerPersistOps] using hmem
    rcases h with h | h | h
    · exact FsOp.noConfusion h
    · injection h with h1 h2
      exact hne h1.symm
    · exact FsOp.noConfusion h
  · simp [subagentRegistryPersistOps]
  · simp [heartbeatSaveStateOps]
  · simp [consolidatorSaveStateOps]
  · intro src dst
    simp [subagentRegistryPersistOps]
  · intro src dst
    simp [heartbeatSaveStateOps]
  · intro src dst
    simp [consolidatorSaveStateOps]

/-! ### Claim C2: pairing guarantees of the sanitizer -/

theorem mem_collectToolUseIds {u : String} {ms : List AgentMessage} :
    u ∈ collectToolUseIds ms ↔ ∃ m ∈ ms, u ∈ msgUseIds m := by
  simp [collectToolUseIds, List.mem_flatten]

theorem mem_collectToolResultIds {u : String} {ms : List AgentMessage} :
    u ∈ collectToolResultIds ms ↔ ∃ m ∈ ms, u ∈ msgResultIds m := by
  simp [collectToolResultIds, List.mem_flatten]

theorem mem_orphanedUseIds {u : String} {ms : List AgentMessage} :
    u ∈ orphanedUseIds ms ↔
      u ∈ collectToolUseIds ms ∧ u ∉ collectToolResultIds ms := by
  simp [orphanedUseIds, List.mem_filter, List.elem_iff]

theorem mem_orphanedResultIds {u : String} {ms : List AgentMessage} :
    u ∈ orphanedResultIds ms ↔
      u ∈ collectToolResultIds ms ∧ u ∉ collectToolUseIds ms := by
  simp [orphanedResultIds, List.mem_filter, List.elem_iff]

theorem useId_eq_some {b : ContentBlock} {u : String} :
    useId b = some u ↔ b.type = some "tool_use" ∧ b.id = some u := by
  unfold useId
  split
  · next hty => simp [hty]
  · next hty => simp [hty]

theorem resultId_eq_some {b : ContentBlock} {u : String} :
    resultId b = some u ↔ b.type = some "tool_result" ∧ b.tool_use_id = some u := by
  unfold resultId
  split
  · next hty => simp [hty]
  · next hty => simp [hty]

theorem keepBlock_of_tool_use {oU oR : List String} {b : ContentBlock} {u : String}
    (hty : b.type = some "tool_use") (hid : b.id = some u) :
    keepBlock oU oR b = true ↔ u ∉ oU := by
  unfold keepBlock
  rw [hty, hid]
  simp [List.elem_iff]

theorem keepBlock_of_tool_result {oU oR : List String} {b : ContentBlock} {u : String}
    (hty : b.type = some "tool_result") (hid : b.tool_use_id = some u) :
    keepBlock oU oR b = true ↔ u ∉ oR := by
  unfold keepBlock
  rw [hty, hid]
  simp [List.elem_iff]

/-- If a message with array content survives repair, it survives as the same
message with its blocks filtered by the keep test. -/
theorem repairMsg_some_blocks {oU oR : List String} {m m' : AgentMessage}
    {bs : List ContentBlock} (hcm : m.content = .blocks bs)
    (h : repairMsg oU oR m = some m') :
    m' = { m with content := .blocks (bs.filter (keepBlock oU oR)) } := by
  unfold repairMsg at h
  simp only [hcm] at h
  by_cases hemp : (bs.filter (keepBlock oU oR)).isEmpty
  · rw [if_pos hemp] at h
    exact absurd h (by simp)
  · rw [if_neg hemp] at h
    exact (Option.some_inj.mp h).symm

/-- A message with array content holding at least one kept block survives
repair. -/
theorem repairMsg_eq_some_of_kept {oU oR : List String} {m : AgentMessage}
    {bs : List ContentBlock} {b : ContentBlock} (hcm : m.content = .blocks bs)
    (hb : b ∈ bs) (hkeep : keepBlock oU oR b = true) :
    repairMsg oU oR m
      = some { m with content := .blocks (bs.filter (keepBlock oU oR)) } := by
  unfold repairMsg
  simp only [hcm]
  rw [if_neg]
  intro hemp
  rw [List.isEmpty_iff] at hemp
  have hmem : b ∈ bs.filter (keepBlock oU oR) := List.mem_filter.mpr ⟨hb, hkeep⟩
  rw [hemp] at hmem
  exact absurd hmem (List.not_mem_nil b)

theorem msgUseIds_blocks {m : AgentMessage} {bs : List ContentBlock}
    (h : m.content = .blocks bs) : msgUseIds m = bs.filterMap useId := by
  simp [msgUseIds, h]

theorem msgResultIds_blocks {m : AgentMessage} {bs : List ContentBlock}
    (h : m.content = .blocks bs) : msgResultIds m = bs.filterMap resultId := by
  simp [msgResultIds, h]

/-- Every `tool_use` id surviving the repair pass has a surviving matching
`tool_result`. -/
theorem sanitize_use_ids_answered (ms : List AgentMessage) :
    ∀ u ∈ collectToolUseIds (sanitizeToolUseResultPairing ms),
      u ∈ collectToolResultIds (sanitizeToolUseResultPairing ms) := by
  intro u hu
  unfold sanitizeToolUseResultPairing at hu ⊢
  by_cases hemp : ((orphanedUseIds ms).isEmpty && (orphanedResultIds ms).isEmpty) = true
  · rw [if_pos hemp] at hu ⊢
    by_contra hnot
    have horph : u ∈ orphanedUseIds ms := mem_orphanedUseIds.mpr ⟨hu, hnot⟩
    have h1 : (orphanedUseIds ms).isEmpty = true := (Bool.and_eq_true _ _).mp hemp |>.1
    rw [List.isEmpty_iff] at h1
    rw [h1] at horph
    exact absurd horph (List.not_mem_nil u)
  · rw [if_neg hemp] at hu ⊢
    obtain ⟨m', hm', humem⟩ := mem_collectToolUseIds.mp hu
    obtain ⟨m, hm, hrep⟩ := List.mem_filterMap.mp hm'
    rcases hcm : m.content with sM | bs | _
    · have hm'm : m' = m := by
        unfold repairMsg at hrep
        simp only [hcm] at hrep
        exact (Option.some_inj.mp hrep).symm
      rw [hm'm] at humem
      simp [msgUseIds, hcm] at humem
    · have hm'eq := repairMsg_some_blocks hcm hrep
      rw [hm'eq] at humem
      rw [msgUseIds_blocks rfl] at humem
      obtain ⟨b, hbf, hbu⟩ := List.mem_filterMap.mp humem
      obtain ⟨hb, hkeep⟩ := List.mem_filter.mp hbf
      obtain ⟨hty, hid⟩ := useId_eq_some.mp hbu
      have hnotoU : u ∉ orphanedUseIds ms := (keepBlock_of_tool_use hty hid).mp hkeep
      have huU : u ∈ collectToolUseIds ms := by
        refine mem_collectToolUseIds.mpr ⟨m, hm, ?_⟩
        rw [msgUseIds_blocks hcm]
        exact List.mem_filterMap.mpr ⟨b, hb, hbu⟩
      have huR : u ∈ collectToolResultIds ms := by
        by_contra hnot
        exact hnotoU (mem_orphanedUseIds.mpr ⟨huU, hnot⟩)
      obtain ⟨m2, hm2, hu2⟩ := mem_collectToolResultIds.mp huR
      rcases hcm2 : m2.content with s2 | bs2 | _
      · simp [msgResultIds, hcm2] at hu2
      · rw [msgResultIds_blocks hcm2] at hu2
        obtain ⟨b2, hb2, hbu2⟩ := List.mem_filterMap.mp hu2
        obtain ⟨hty2, hid2⟩ := resultId_eq_some.mp hbu2
        have hnotoR : u ∉ orphanedResultIds ms := by
          intro hmem
          exact (mem_orphanedResultIds.mp hmem).2 huU
        have hkeep2 : keepBlock (orphanedUseIds ms) (orphanedResultIds ms) b2 = true :=
          (keepBlock_of_tool_result hty2 hid2).mpr hnotoR
        have hrep2 := repairMsg_eq_some_of_kept hcm2 hb2 hkeep2
        refine mem_collectToolResultIds.mpr
          ⟨_, List.mem_filterMap.mpr ⟨m2, hm2, hrep2⟩, ?_⟩
        rw [msgResultIds_blocks rfl]
        exact List.mem_filterMap.mpr ⟨b2, List.mem_filter.mpr ⟨hb2, hkeep2⟩, hbu2⟩
      · simp [msgResultIds, hcm2] at hu2
    · have hm'm : m' = m := by
        unfold repairMsg at hrep
        simp only [hcm] at hrep
        exact (Option.some_inj.mp hrep).symm
      rw [hm'm] at humem
      simp [msgUseIds, hcm] at humem

/-- Every `tool_result` reference surviving the repair pass has a surviving
matching `tool_use`. -/
theorem sanitize_result_ids_answered (ms : List AgentMessage) :
    ∀ u ∈ collectToolResultIds (sanitizeToolUseResultPairing ms),
      u ∈ collectToolUseIds (sanitizeToolUseResultPairing ms) := by
  intro u hu
  unfold sanitizeToolUseResultPairing at hu ⊢
  by_cases hemp : ((orphanedUseIds ms).isEmpty && (orphanedResultIds ms).isEmpty) = true
  · rw [if_pos hemp] at hu ⊢
    by_contra hnot
    have horph : u ∈ orphanedResultIds ms := mem_orphanedResultIds.mpr ⟨hu, hnot⟩
    have h1 : (orphanedResultIds ms).isEmpty = true := (Bool.and_eq_true _ _).mp hemp |>.2
    rw [List.isEmpty_iff] at h1
    rw [h1] at horph
    exact absurd horph (List.not_mem_nil u)
  · rw [if_neg hemp] at hu ⊢
    obtain ⟨m', hm', humem⟩ := mem_collectToolResultIds.mp hu
    obtain ⟨m, hm, hrep⟩ := List.mem_filterMap.mp hm'
    rcases hcm : m.content with sM | bs | _
    · have hm'm : m' = m := by
        unfold repairMsg at hrep
        simp only [hcm] at hrep
        exact (Option.some_inj.mp hrep).symm
      rw [hm'm] at humem
      simp [msgResultIds, hcm] at humem
    · have hm'eq := repairMsg_some_blocks hcm hrep
      rw [hm'eq] at humem
      rw [msgResultIds_blocks rfl] at humem
      obtain ⟨b, hbf, hbu⟩ := List.mem_filterMap.mp humem
      obtain ⟨hb, hkeep⟩ := List.mem_filter.mp hbf
      obtain ⟨hty, hid⟩ := resultId_eq_some.mp hbu
      have hnotoR : u ∉ orphanedResultIds ms := (keepBlock_of_tool_result hty hid).mp hkeep
      have huR : u ∈ collectToolResultIds ms := by
        refine mem_collectToolResultIds.mpr ⟨m, hm, ?_⟩
        rw [msgResultIds_blocks hcm]
        exact List.mem_filterMap.mpr ⟨b, hb, hbu⟩
      have huU : u ∈ collectToolUseIds ms := by
        by_contra hnot
        exact hnotoR (mem_orphanedResultIds.mpr ⟨huR, hnot⟩)
      obtain ⟨m2, hm2, hu2⟩ := mem_collectToolUseIds.mp huU
      rcases hcm2 : m2.content with s2 | bs2 | _
      · simp [msgUseIds, hcm2] at hu2
      · rw [msgUseIds_blocks hcm2] at hu2
        obtain ⟨b2, hb2, hbu2⟩ := List.mem_filterMap.mp hu2
        obtain ⟨hty2, hid2⟩ := useId_eq_some.mp hbu2
        have hnotoU : u ∉ orphanedUseIds ms := by
          intro hmem
          exact (mem_orphanedUseIds.mp hmem).2 huR
        have hkeep2 : keepBlock (orphanedUseIds ms) (orphanedResultIds ms) b2 = true :=
          (keepBlock_of_tool_use hty2 hid2).mpr hnotoU
        have hrep2 := repairMsg_eq_some_of_kept hcm2 hb2 hkeep2
        refine mem_collectToolUseIds.mpr
          ⟨_, List.mem_filterMap.mpr ⟨m2, hm2, hrep2⟩, ?_⟩
        rw [msgUseIds_blocks rfl]
        exact List.mem_filterMap.mpr ⟨b2, List.mem_filter.mpr ⟨hb2, hkeep2⟩, hbu2⟩
      · simp [msgUseIds, hcm2] at hu2
    · have hm'm : m' = m := by
        unfold repairMsg at hrep
        simp only [hcm] at hrep
        exact (Option.some_inj.mp hrep).symm
      rw [hm'm] at humem
      simp [msgResultIds, hcm] at humem

/-- C2 as stated fails: on `c2Messages` the sanitizer keeps everything (the
ids match globally), yet the assistant `tool_use "a"` has no matching
`tool_result` in the immediately following non-assistant message — the
matching block sits one message later. -/
theorem C2_counterexample :
    sanitizeSessionHistory c2Messages none = c2Messages ∧
    locallyPaired (sanitizeSessionHistory c2Messages none) = false := by
  constructor <;> decide

/-- C2 amended: the pairing `sanitizeSessionHistory` restores is global, not
positional — after it, every remaining `tool_use` id has a matching
`tool_result` *somewhere* in the list and vice versa; orphaned blocks are
dropped and emptied messages removed, but a `tool_use` may be answered by a
`tool_result` further away than the immediately following message. -/
theorem C2_sanitize_global_pairing (messages : List AgentMessage)
    (historyLimit : Option Int) :
    (∀ u ∈ collectToolUseIds (sanitizeSessionHistory messages historyLimit),
        u ∈ collectToolResultIds (sanitizeSessionHistory messages historyLimit)) ∧
    (∀ u ∈ collectToolResultIds (sanitizeSessionHistory messages historyLimit),
        u ∈ collectToolUseIds (sanitizeSessionHistory messages historyLimit)) := by
  unfold sanitizeSessionHistory
  exact ⟨sanitize_use_ids_answered _, sanitize_result_ids_answered _⟩

/-- Concrete check of `C2_sanitize_global_pairing` on `c2Messages`. -/
theorem C2_sanitize_global_pairing_witness :
    "a" ∈ collectToolUseIds (sanitizeSessionHistory c2Messages none) ∧
    "a" ∈ collectToolResultIds (sanitizeSessionHistory c2Messages none) :=
  ⟨by decide, (C2_sanitize_global_pairing c2Messages none).1 "a" (by decide)⟩

/-! ### Claim C8: when the consolidator advances the persisted count -/

/-- C8 as stated fails: on a secondary-model response with no
`===MEMORY===` / `===HISTORY===` markers, the parse yields nothing and no
content is written, yet `consolidate` still persists
`lastConsolidatedMessageCount = currentCount` (here 1, advanced from 0). -/
theorem C8_count_advanced_on_parse_failure :
    parseConsolidationResponse "no markers here" = (none, none) ∧
    consolidate 0 [⟨"user", "hi"⟩] 1 (Except.ok "no markers here") true true
      = .ok ⟨1, false, false⟩ ∧
    (1 : Nat) ≠ 0 := by
  refine ⟨by decide, by rfl, by decide⟩

/-- C8 amended: the consolidator leaves the persisted count unchanged when
there are no new messages or the LLM call fails, and a write failure raises
before `saveState` (so no `.ok` result and no advance) — but whenever the
LLM call returns and every attempted write succeeds, the count is advanced
to `currentCount` regardless of whether the marker parse succeeded. -/
theorem C8_count_advance (lastCount currentCount : Nat) (messages : List ConsMsg)
    (llmResponse : Except String String) (memWriteOk histWriteOk : Bool)
    (r : ConsolidateResult)
    (h : consolidate lastCount messages currentCount llmResponse memWriteOk
        histWriteOk = .ok r) :
    (r.persistedCount = lastCount ∨ r.persistedCount = currentCount) ∧
    ((messages.drop lastCount).isEmpty = true → r.persistedCount = lastCount) ∧
    (∀ e, llmResponse = .error e → r.persistedCount = lastCount) ∧
    (∀ resp, llmResponse = .ok resp → (messages.drop lastCount).isEmpty = false →
      r.persistedCount = currentCount) := by
  unfold consolidate at h
  by_cases hne : (messages.drop lastCount).isEmpty
  · rw [if_pos hne] at h
    have hr : r = ⟨lastCount, false, false⟩ := (Except.ok.inj h).symm
    subst hr
    refine ⟨Or.inl rfl, fun _ => rfl, fun _ _ => rfl, fun resp _ hne2 => ?_⟩
    rw [hne] at hne2
    exact absurd hne2 (by simp)
  · rw [if_neg hne] at h
    cases llmResponse with
    | error e =>
        have hr : r = ⟨lastCount, false, false⟩ := (Except.ok.inj h).symm
        subst hr
        exact ⟨Or.inl rfl, fun _ => rfl, fun _ _ => rfl,
          fun resp hresp => by cases hresp⟩
    | ok resp =>
        have hcur : r.persistedCount = currentCount := by
          dsimp only at h
          rcases hp : parseConsolidationResponse resp with ⟨pm, ph⟩
          rw [hp] at h
          rcases pm with _ | m1 <;> rcases ph with _ | h1 <;>
            split_ifs at h <;> cases h <;> rfl
        refine ⟨Or.inr hcur, fun hemp => absurd hemp (by simp [hne]), ?_, ?_⟩
        · intro e he
          cases he
        · intro resp2 _ _
          exact hcur

/-- Concrete check of `C8_count_advance`: the marker-free consolidation run
that returned normally carried the advanced count. -/
theorem C8_count_advance_witness :
    consolidate 0 [⟨"user", "hi"⟩] 1 (Except.ok "no markers here") true true
        = .ok ⟨1, false, false⟩ ∧
    ((1 : Nat) = 0 ∨ (1 : Nat) = 1) :=
  ⟨by rfl,
   (C8_count_advance 0 1 [⟨"user", "hi"⟩] (Except.ok "no markers here") true true
      ⟨1, false, false⟩ (by rfl)).1⟩

/-! ### Claim C5: completed subagent runs -/

/-- Membership in `setRun`: the new record, or an untouched old one. -/
theorem mem_setRun {runs : SubagentRuns} {rec r : SubagentRunRecord}
    (h : r ∈ setRun runs rec) : r = rec ∨ r ∈ runs := by
  unfold setRun at h
  split_ifs at h
  · obtain ⟨x, hx, hxe⟩ := List.mem_map.mp h
    by_cases hid : (x.runId == rec.runId) = true
    · rw [if_pos hid] at hxe
      exact Or.inl hxe.symm
    · rw [if_neg hid] at hxe
      exact Or.inr (hxe ▸ hx)
  · rcases List.mem_append.mp h with h | h
    · exact Or.inr h
    · exact Or.inl (List.mem_singleton.mp h)

/-- The registry invariant: every record was created no later than the
current clock, and every completed (`ok`/`error`) record carries an end time
no earlier than its creation and at least one of `result`/`error`; `ok`
records always carry a `result`. -/
theorem regInvariant (t : Int) (s : SubagentRuns) (h : RegReachable t s) :
    ∀ r ∈ s, r.createdAt ≤ t ∧
      ((r.status = .ok ∨ r.status = .error) →
        (∃ e, r.endedAt = some e ∧ r.createdAt ≤ e) ∧
        (r.result ≠ none ∨ r.error ≠ none) ∧
        (r.status = .ok → r.result ≠ none)) := by
  induction h with
  | init t => exact fun r hr => absurd hr (List.not_mem_nil r)
  | step t t' op s hle hs ih =>
      intro r hr
      cases op with
      | spawn task parent chan label uuid =>
          rcases mem_setRun hr with rfl | hro
          · refine ⟨le_refl t', ?_⟩
            rintro (hst | hst) <;> exact absurd hst (by simp [spawnRecord])
          · obtain ⟨hc, hrest⟩ := ih r hro
            exact ⟨hc.trans hle, hrest⟩
      | complete runId res st =>
          dsimp only [applyRegOp] at hr
          split_ifs at hr with hst
          · obtain ⟨x, hx, hxe⟩ := List.mem_map.mp hr
            obtain ⟨hcx, _⟩ := ih x hx
            by_cases hid : (x.runId == runId) = true
            · rw [if_pos hid] at hxe
              subst hxe
              refine ⟨hcx.trans hle, fun _ => ?_⟩
              exact ⟨⟨t', rfl, hcx.trans hle⟩, Or.inl (by simp),
                fun _ => by simp⟩
            · rw [if_neg hid] at hxe
              subst hxe
              obtain ⟨hc, hrest⟩ := ih x hx
              exact ⟨hc.trans hle, hrest⟩
          · obtain ⟨hc, hrest⟩ := ih r hr
            exact ⟨hc.trans hle, hrest⟩
      | kill runId =>
          dsimp only [applyRegOp] at hr
          unfold killRun at hr
          rcases hfind : (s.find? (fun x => x.runId == runId)) with _ | r0
          · rw [hfind] at hr
            dsimp only at hr
            obtain ⟨hc, hrest⟩ := ih r hr
            exact ⟨hc.trans hle, hrest⟩
          · rw [hfind] at hr
            dsimp only at hr
            split_ifs at hr with hrun
            · obtain ⟨x, hx, hxe⟩ := List.mem_map.mp hr
              by_cases hid : (x.runId == runId) = true
              · rw [if_pos hid] at hxe
                subst hxe
                obtain ⟨hc, _⟩ := ih x hx
                refine ⟨hc.trans hle, ?_⟩
                rintro (hst | hst) <;> exact absurd hst (by simp)
              · rw [if_neg hid] at hxe
                subst hxe
                obtain ⟨hc, hrest⟩ := ih x hx
                exact ⟨hc.trans hle, hrest⟩
            · obtain ⟨hc, hrest⟩ := ih r hr
              exact ⟨hc.trans hle, hrest⟩
      | cleanup maxAgeMs =>
          dsimp only [applyRegOp] at hr
          obtain ⟨hro, _⟩ := List.mem_filter.mp hr
          obtain ⟨hc, hrest⟩ := ih r hro
          exact ⟨hc.trans hle, hrest⟩
      | restartLoad =>
          dsimp only [applyRegOp] at hr
          unfold loadRewriteStale at hr
          obtain ⟨x, hx, hxe⟩ := List.mem_map.mp hr
          obtain ⟨hc, hrest⟩ := ih x hx
          split_ifs at hxe with hrun
          · subst hxe
            refine ⟨hc.trans hle, fun _ => ?_⟩
            exact ⟨⟨t', rfl, hc.trans hle⟩, Or.inr (by simp),
              fun hok => absurd hok (by simp)⟩
          · subst hxe
            exact ⟨hc.trans hle, hrest⟩

/-- C5 as stated fails: after a registry load that rewrites a stale
`running` record (process restart), the record has status `error` with
`result` still null — the load path sets only `status`, `error` and
`endedAt`. -/
theorem C5_restart_rewrite_leaves_result_null :
    RegReachable 1 c5State ∧
    ∃ r ∈ c5State, r.status = RunStatus.error ∧ r.result = none := by
  constructor
  · exact RegReachable.step 0 1 .restartLoad c5Spawned (by norm_num)
      (RegReachable.step 0 0 (.spawn "t" "parent" "chan" none "u1") []
        (le_refl 0) (RegReachable.init 0))
  · decide

/-- C5 amended: in every reachable registry, a record with status `ok` or
`error` has `endedAt ≥ createdAt` and at least one of `result` / `error`
non-null; `result` itself is non-null whenever the status is `ok` (the
`markComplete` path always sets it), but the restart-rewrite path sets only
`error`, leaving `result` null. -/
theorem C5_completed_runs (t : Int) (s : SubagentRuns) (h : RegReachable t s)
    (r : SubagentRunRecord) (hr : r ∈ s)
    (hst : r.status = RunStatus.ok ∨ r.status = RunStatus.error) :
    (∃ e, r.endedAt = some e ∧ r.createdAt ≤ e) ∧
    (r.result ≠ none ∨ r.error ≠ none) ∧
    (r.status = RunStatus.ok → r.result ≠ none) :=
  (regInvariant t s h r hr).2 hst

/-- Concrete check of `C5_completed_runs` on a normally completed run. -/
theorem C5_completed_runs_witness :
    (c5Rec ∈ c5Complete ∧ (c5Rec.status = RunStatus.ok ∨ c5Rec.status = RunStatus.error)) ∧
    ((∃ e, c5Rec.endedAt = some e ∧ c5Rec.createdAt ≤ e) ∧
     (c5Rec.result ≠ none ∨ c5Rec.error ≠ none) ∧
     (c5Rec.status = RunStatus.ok → c5Rec.result ≠ none)) :=
  ⟨⟨by decide, by decide⟩,
   C5_completed_runs 5 c5Complete
     (RegReachable.step 0 5 (.complete "u1" "res" .ok) c5Spawned (by norm_num)
       (RegReachable.step 0 0 (.spawn "t" "parent" "chan" none "u1") []
         (le_refl 0) (RegReachable.init 0)))
     c5Rec (by decide) (by decide)⟩

theorem jobCore_beginBookkeep (j : ScheduledJob) (now : Int) :
    jobCore (beginBookkeep j now) = jobCore j := rfl

theorem jobCore_computeNextRun (j : ScheduledJob) (now : Int) (c : Option Int) :
    jobCore (computeNextRun j now c) = jobCore j := by
  unfold computeNextRun
  cases j.schedule <;> rfl

theorem beginBookkeep_id (j : ScheduledJob) (now : Int) :
    (beginBookkeep j now).id = j.id := rfl

/-- Transfer of the invariant across states with the same armed set and the
same job cores. -/
theorem schedInv_transfer {opts : SchedulerOptions} {s s' : SchedulerState}
    (h1 : s'.armed = s.armed) (h2 : s'.jobs.map jobCore = s.jobs.map jobCore)
    (hinv : schedInv opts s) : schedInv opts s' := by
  obtain ⟨hnd, h2inv, h3inv⟩ := hinv
  have hmatch : ∀ j' ∈ s'.jobs, ∃ j ∈ s.jobs, jobCore j = jobCore j' := by
    intro j' hj'
    have : jobCore j' ∈ s.jobs.map jobCore := by
      rw [← h2]
      exact List.mem_map_of_mem jobCore hj'
    obtain ⟨j, hj, hje⟩ := List.mem_map.mp this
    exact ⟨j, hj, hje⟩
  refine ⟨?_, ?_, ?_⟩
  · have hids : s'.jobs.map (fun j => j.id)
        = (s'.jobs.map jobCore).map (fun c => c.1) := by
      rw [List.map_map]
      rfl
    rw [hids, h2, List.map_map]
    exact hnd
  · intro j' hj' hid
    obtain ⟨j, hj, hje⟩ := hmatch j' hj'
    have hi : j.id = j'.id := congrArg (fun c => c.1) hje
    have he : j.enabled = j'.enabled := congrArg (fun c => c.2.1) hje
    have hidmem : j.id ∈ s.armed := by
      rw [hi, ← h1]
      exact hid
    rw [← he]
    exact h2inv j hj hidmem
  · intro j' hj' hcf
    obtain ⟨j, hj, hje⟩ := hmatch j' hj'
    have hi : j.id = j'.id := congrArg (fun c => c.1) hje
    have he : j.enabled = j'.enabled := congrArg (fun c => c.2.1) hje
    have hc : j.state.consecutiveFailures = j'.state.consecutiveFailures :=
      congrArg (fun c => c.2.2) hje
    obtain ⟨hen, harm⟩ := h3inv j hj (hc ▸ hcf)
    rw [← he, h1, ← hi]
    exact ⟨hen, harm⟩

/-- `admitRun` keeps the armed set and the job cores. -/
theorem admitRun_core (s : SchedulerState) (id : String) (now : Int) :
    (admitRun s id now).1.armed = s.armed ∧
    (admitRun s id now).1.jobs.map jobCore = s.jobs.map jobCore := by
  unfold admitRun
  cases s.jobs.find? (fun j => j.id == id) with
  | none => exact ⟨rfl, rfl⟩
  | some j =>
      refine ⟨rfl, ?_⟩
      dsimp only
      rw [List.map_map]
      refine List.map_congr_left ?_
      intro x _
      dsimp only [Function.comp]
      by_cases hx : (x.id == id) = true
      · rw [if_pos hx]
        rfl
      · rw [if_neg hx]

/-- `enqueueExecution` keeps the armed set and the job cores. -/
theorem enqueueExecution_core (opts : SchedulerOptions) (s : SchedulerState)
    (id : String) (now : Int) :
    (enqueueExecution opts s id now).1.armed = s.armed ∧
    (enqueueExecution opts s id now).1.jobs.map jobCore = s.jobs.map jobCore := by
  unfold enqueueExecution
  split_ifs with h1 h2
  · exact admitRun_core s id now
  · exact ⟨rfl, rfl⟩
  · exact ⟨rfl, rfl⟩

/-- `drainGo` keeps the armed set and the job cores. -/
theorem drainGo_core (opts : SchedulerOptions) (now : Int) :
    ∀ (fuel : Nat) (s : SchedulerState),
      (drainGo opts now fuel s).1.armed = s.armed ∧
      (drainGo opts now fuel s).1.jobs.map jobCore = s.jobs.map jobCore := by
  intro fuel
  induction fuel with
  | zero => exact fun s => ⟨rfl, rfl⟩
  | succ n ih =>
      intro s
      show (drainGo opts now (n + 1) s).1.armed = s.armed ∧ _
      unfold drainGo
      cases hq : s.pendingQueue with
      | nil => exact ⟨rfl, rfl⟩
      | cons next restQ =>
          dsimp only
          split_ifs with hcap
          · have hadm := admitRun_core { s with pendingQueue := restQ } next now
            have hrec := ih (admitRun { s with pendingQueue := restQ } next now).1
            exact ⟨hrec.1.trans hadm.1, hrec.2.trans hadm.2⟩
          · exact ⟨rfl, rfl⟩

/-- `tickGo` keeps the armed set and the job cores. -/
theorem tickGo_core (opts : SchedulerOptions) (now : Int) :
    ∀ (ids : List String) (s : SchedulerState),
      (tickGo opts now ids s).1.armed = s.armed ∧
      (tickGo opts now ids s).1.jobs.map jobCore = s.jobs.map jobCore := by
  intro ids
  induction ids with
  | nil => exact fun s => ⟨rfl, rfl⟩
  | cons id rest ih =>
      intro s
      unfold tickGo
      dsimp only
      split_ifs with hfire
      · have henq := enqueueExecution_core opts s id now
        have hrec := ih (enqueueExecution opts s id now).1
        exact ⟨hrec.1.trans henq.1, hrec.2.trans henq.2⟩
      · exact ih s

/-- `recoverGo` keeps the armed set and the job cores. -/
theorem recoverGo_core (opts : SchedulerOptions) (now : Int) :
    ∀ (ids : List String) (s : SchedulerState),
      (recoverGo opts now ids s).1.armed = s.armed ∧
      (recoverGo opts now ids s).1.jobs.map jobCore = s.jobs.map jobCore := by
  intro ids
  induction ids with
  | nil => exact fun s => ⟨rfl, rfl⟩
  | cons id rest ih =>
      intro s
      unfold recoverGo
      dsimp only
      split_ifs with hfire
      · have henq := enqueueExecution_core opts s id now
        have hrec := ih (enqueueExecution opts s id now).1
        exact ⟨hrec.1.trans henq.1, hrec.2.trans henq.2⟩
      · exact ih s

theorem disarmId_inv {opts : SchedulerOptions} {s : SchedulerState} (id : String)
    (hinv : schedInv opts s) : schedInv opts (disarmId s id) := by
  obtain ⟨hnd, h2, h3⟩ := hinv
  refine ⟨hnd, ?_, ?_⟩
  · intro j hj hid
    exact h2 j hj (List.mem_filter.mp hid).1
  · intro j hj hcf
    obtain ⟨hen, harm⟩ := h3 j hj hcf
    exact ⟨hen, fun hmem => harm (List.mem_filter.mp hmem).1⟩

theorem armed_extend_inv {opts : SchedulerOptions} {s : SchedulerState}
    {j : ScheduledJob} (hinv : schedInv opts s)
    (hj : ∀ x ∈ s.jobs, x.id = j.id → x.enabled = true) :
    schedInv opts { s with armed := s.armed ++ [j.id] } := by
  obtain ⟨hnd, h2, h3⟩ := hinv
  refine ⟨hnd, ?_, ?_⟩
  · intro x hx hid
    rcases List.mem_append.mp hid with h | h
    · exact h2 x hx h
    · exact hj x hx (List.mem_singleton.mp h)
  · intro x hx hcf
    obtain ⟨hen, harm⟩ := h3 x hx hcf
    refine ⟨hen, fun hmem => ?_⟩
    rcases List.mem_append.mp hmem with h | h
    · exact harm h
    · have htrue := hj x hx (List.mem_singleton.mp h)
      rw [htrue] at hen
      exact Bool.true_eq_false.mp hen

theorem armJob_inv (opts : SchedulerOptions) {s : SchedulerState}
    (j : ScheduledJob) (now : Int) (cronValid : Bool)
    (hinv : schedInv opts s)
    (hj : ∀ x ∈ s.jobs, x.id = j.id → x.enabled = true) :
    schedInv opts (armJob opts s j now cronValid).1 := by
  have hd : schedInv opts (disarmId s j.id) := disarmId_inv j.id hinv
  have hjd : ∀ x ∈ (disarmId s j.id).jobs, x.id = j.id → x.enabled = true := hj
  unfold armJob
  cases j.schedule with
  | atTime atMs =>
      dsimp only
      split_ifs with hdue
      · have hc := enqueueExecution_core opts (disarmId s j.id) j.id now
        exact schedInv_transfer hc.1 hc.2 hd
      · exact armed_extend_inv hd hjd
  | cron expr tz =>
      dsimp only
      split_ifs with hvalid
      · exact armed_extend_inv hd hjd
      · exact hd
  | every intervalMs =>
      exact armed_extend_inv hd hjd

theorem finishJobUpdate_id (opts : SchedulerOptions) (j : ScheduledJob)
    (outcomes : Nat → AttemptOutcome) (now : Int) :
    (finishJobUpdate opts j outcomes now).id = j.id := by
  unfold finishJobUpdate
  split_ifs <;> rfl

theorem finishJobUpdate_enabled (opts : SchedulerOptions) (j : ScheduledJob)
    (outcomes : Nat → AttemptOutcome) (now : Int)
    (h : (finishJobUpdate opts j outcomes now).enabled = true) :
    j.enabled = true := by
  unfold finishJobUpdate at h
  by_cases h1 : (runAttempts opts outcomes).1 = true
  · rw [if_pos h1] at h
    exact h
  · rw [if_neg h1] at h
    dsimp only at h
    by_cases h2 : opts.maxConsecutiveFailures ≤ j.state.consecutiveFailures + 1
    · rw [if_pos h2] at h
      exact absurd h (by simp)
    · rw [if_neg h2] at h
      exact h

theorem finishJobUpdate_cap (opts : SchedulerOptions) (j : ScheduledJob)
    (outcomes : Nat → AttemptOutcome) (now : Int)
    (hmax : 0 < opts.maxConsecutiveFailures)
    (hcf : opts.maxConsecutiveFailures
        ≤ (finishJobUpdate opts j outcomes now).state.consecutiveFailures) :
    (finishJobUpdate opts j outcomes now).enabled = false ∧
    autoDisabledAfter opts j outcomes = true := by
  by_cases h1 : (runAttempts opts outcomes).1 = true
  · unfold finishJobUpdate at hcf
    rw [if_pos h1] at hcf
    dsimp only at hcf
    omega
  · have h2 : opts.maxConsecutiveFailures ≤ j.state.consecutiveFailures + 1 := by
      unfold finishJobUpdate at hcf
      rw [if_neg h1] at hcf
      exact hcf
    constructor
    · unfold finishJobUpdate
      rw [if_neg h1]
      dsimp only
      rw [if_pos h2]
    · unfold autoDisabledAfter
      simp [h1, h2]

theorem finishJobUpdate_disabled_of (opts : SchedulerOptions) (j : ScheduledJob)
    (outcomes : Nat → AttemptOutcome) (now : Int)
    (h : (finishJobUpdate opts j outcomes now).enabled = false)
    (hje : j.enabled = true) : autoDisabledAfter opts j outcomes = true := by
  unfold finishJobUpdate at h
  by_cases h1 : (runAttempts opts outcomes).1 = true
  · rw [if_pos h1] at h
    dsimp only at h
    rw [hje] at h
    exact absurd h (by simp)
  · rw [if_neg h1] at h
    dsimp only at h
    by_cases h2 : opts.maxConsecutiveFailures ≤ j.state.consecutiveFailures + 1
    · unfold autoDisabledAfter
      simp [h1, h2]
    · rw [if_neg h2] at h
      rw [hje] at h
      exact absurd h (by simp)

/-- Invariant preservation through `finishExecute`. -/
theorem finishExecute_inv (opts : SchedulerOptions) {s : SchedulerState}
    (id : String) (outcomes : Nat → AttemptOutcome) (now : Int)
    (cronNext : Option Int) (hinv : schedInv opts s)
    (hmax : 0 < opts.maxConsecutiveFailures) :
    schedInv opts (finishExecute opts s id outcomes now cronNext) := by
  unfold finishExecute
  cases hfind : s.jobs.find? (fun j => j.id == id) with
  | none => exact hinv
  | some j =>
      dsimp only
      obtain ⟨hnd, h2, h3⟩ := hinv
      have hjid : j.id = id := by
        have := List.find?_some hfind
        simpa using this
      set j1 := finishJobUpdate opts j outcomes now with hj1
      have hj1id : j1.id = id := by rw [hj1, finishJobUpdate_id, hjid]
      set armed1 := if autoDisabledAfter opts j outcomes then
          s.armed.filter (fun a => a != id)
        else s.armed with harmed1
      set jobs1 := s.jobs.map (fun x => if x.id == id then j1 else x) with hjobs1
      have harmed1sub : ∀ a ∈ armed1, a ∈ s.armed := by
        intro a ha
        rw [harmed1] at ha
        split_ifs at ha with hdis
        · exact (List.mem_filter.mp ha).1
        · exact ha
      have hids1 : jobs1.map (fun x => x.id) = s.jobs.map (fun x => x.id) := by
        rw [hjobs1, List.map_map]
        refine List.map_congr_left ?_
        intro x _
        dsimp only [Function.comp]
        by_cases hx : (x.id == id) = true
        · rw [if_pos hx]
          rw [hj1id]
          exact (beq_iff_eq.mp hx).symm
        · rw [if_neg hx]
      have hmem1 : ∀ x' ∈ jobs1,
          ((x'.id = id ∧ x' = j1) ∨ (x' ∈ s.jobs ∧ x'.id ≠ id)) := by
        intro x' hx'
        rw [hjobs1] at hx'
        obtain ⟨x, hx, hxe⟩ := List.mem_map.mp hx'
        by_cases hxid : (x.id == id) = true
        · rw [if_pos hxid] at hxe
          exact Or.inl ⟨hxe ▸ hj1id, hxe.symm⟩
        · rw [if_neg hxid] at hxe
          exact Or.inr ⟨hxe ▸ hx, hxe ▸ fun hc => hxid (beq_iff_eq.mpr hc)⟩
      have hinv1 : schedInv opts ⟨jobs1, armed1, s.runningJobs, s.pendingQueue⟩ := by
        refine ⟨?_, ?_, ?_⟩
        · rw [hids1]
          exact hnd
        · intro x' hx' hid'
          rcases hmem1 x' hx' with ⟨hxid, rfl⟩ | ⟨hxs, hxid⟩
          · by_contra hne
            have hne' : j1.enabled = false := by
              cases hb : j1.enabled
              · rfl
              · exact absurd hb hne
            have hje : j.enabled = true := by
              refine h2 j (List.mem_of_find?_eq_some hfind) ?_
              rw [hjid]
              have := harmed1sub _ hid'
              rw [hj1id] at this
              exact this
            have hdis := finishJobUpdate_disabled_of opts j outcomes now hne' hje
            rw [harmed1, if_pos hdis] at hid'
            have hfil := (List.mem_filter.mp hid').2
            rw [hj1id] at hfil
            simp at hfil
          · exact h2 x' hxs (harmed1sub _ hid')
        · intro x' hx' hcf
          rcases hmem1 x' hx' with ⟨hxid, rfl⟩ | ⟨hxs, hxid⟩
          · obtain ⟨hen, hdis⟩ := finishJobUpdate_cap opts j outcomes now hmax hcf
            refine ⟨hen, fun hmem => ?_⟩
            rw [harmed1, if_pos hdis] at hmem
            have := (List.mem_filter.mp hmem).2
            rw [hj1id] at this
            simp at this
          · obtain ⟨hen, harm⟩ := h3 x' hxs hcf
            exact ⟨hen, fun hmem => harm (harmed1sub _ hmem)⟩
      split_ifs with hdel
      · obtain ⟨hnd1, h21, h31⟩ := hinv1
        refine ⟨?_, ?_, ?_⟩
        · exact List.Nodup.sublist
            (List.Sublist.map (fun x => x.id) (List.filter_sublist jobs1)) hnd1
        · intro x hx hid'
          exact h21 x (List.mem_of_mem_filter hx) (List.mem_filter.mp hid').1
        · intro x hx hcf
          obtain ⟨hen, harm⟩ := h31 x (List.mem_of_mem_filter hx) hcf
          exact ⟨hen, fun hmem => harm (List.mem_filter.mp hmem).1⟩
      · refine @schedInv_transfer opts
          ⟨jobs1, armed1, s.runningJobs, s.pendingQueue⟩ _ rfl ?_ hinv1
        dsimp only
        rw [List.map_map]
        refine List.map_congr_left ?_
        intro x hxmem
        dsimp only [Function.comp]
        by_cases hx : (x.id == id) = true
        · rw [if_pos hx, jobCore_computeNextRun]
          rcases hmem1 x hxmem with ⟨_, rfl⟩ | ⟨_, hne⟩
          · rfl
          · exact absurd (beq_iff_eq.mp hx) hne
        · rw [if_neg hx]

/-- Invariant preservation through `armAllGo`. -/
theorem armAllGo_inv (opts : SchedulerOptions) (now : Int)
    (cronValidF : String → Bool) :
    ∀ (ids : List String) (s : SchedulerState), schedInv opts s →
      schedInv opts (armAllGo opts now cronValidF ids s).1 := by
  intro ids
  induction ids with
  | nil => exact fun s h => h
  | cons id rest ih =>
      intro s hinv
      unfold armAllGo
      cases hfind : s.jobs.find? (fun j => j.id == id) with
      | none => exact ih s hinv
      | some j =>
          dsimp only
          split_ifs with hen
          · refine ih _ (armJob_inv opts j now (cronValidF id) hinv ?_)
            intro x hx hxid
            have hx2 : x = j := List.inj_on_of_nodup_map hinv.1 hx
              (List.mem_of_find?_eq_some hfind) hxid
            rw [hx2]
            exact hen
          · exact ih s hinv

theorem computeNextRun_id (j : ScheduledJob) (now : Int) (c : Option Int) :
    (computeNextRun j now c).id = j.id :=
  congrArg (fun p => p.1) (jobCore_computeNextRun j now c)

theorem computeNextRun_enabled (j : ScheduledJob) (now : Int) (c : Option Int) :
    (computeNextRun j now c).enabled = j.enabled :=
  congrArg (fun p => p.2.1) (jobCore_computeNextRun j now c)

theorem computeNextRun_failures (j : ScheduledJob) (now : Int) (c : Option Int) :
    (computeNextRun j now c).state.consecutiveFailures
      = j.state.consecutiveFailures :=
  congrArg (fun p => p.2.2) (jobCore_computeNextRun j now c)

/-- `armJob` keeps the job cores (it only arms or enqueues). -/
theorem armJob_jobs_core (opts : SchedulerOptions) (s : SchedulerState)
    (j : ScheduledJob) (now : Int) (cronValid : Bool) :
    (armJob opts s j now cronValid).1.jobs.map jobCore = s.jobs.map jobCore := by
  unfold armJob
  cases j.schedule with
  | atTime atMs =>
      dsimp only
      split_ifs with hdue
      · exact (enqueueExecution_core opts (disarmId s j.id) j.id now).2
      · rfl
  | cron expr tz =>
      dsimp only
      split_ifs with hvalid <;> rfl
  | every intervalMs => rfl

/-- Invariant preservation over one scheduler operation. -/
theorem applySchedOp_inv (opts : SchedulerOptions) {s : SchedulerState}
    (op : SchedOp) (now : Int) (hinv : schedInv opts s)
    (hwf : WellFormedOp s op) (hmax : 0 < opts.maxConsecutiveFailures) :
    schedInv opts (applySchedOp opts op now s) := by
  obtain ⟨hnd, h2, h3⟩ := hinv
  cases op with
  | add name description schedule payload sessionKey deleteAfterRun uuid
      cronValid cronNext =>
      dsimp only [applySchedOp, schedFires]
      set job0 : ScheduledJob :=
        { id := uuid, name := name, description := description, enabled := true,
          deleteAfterRun := deleteAfterRun.getD (defaultDeleteAfterRun schedule),
          schedule := schedule, payload := payload, sessionKey := sessionKey,
          createdAt := now, lastRunAt := none, lastError := none, runCount := 0,
          state := { nextRunAtMs := none, consecutiveFailures := 0,
                     lastRetryAtMs := none } } with hjob0
      set job := computeNextRun job0 now cronNext with hjob
      have hjid : job.id = uuid := by rw [hjob, computeNextRun_id, hjob0]
      have hjen : job.enabled = true := by rw [hjob, computeNextRun_enabled, hjob0]
      have hjcf : job.state.consecutiveFailures = 0 := by
        rw [hjob, computeNextRun_failures, hjob0]
      have hinv1 : schedInv opts { s with jobs := s.jobs ++ [job] } := by
        refine ⟨?_, ?_, ?_⟩
        · rw [List.map_append]
          rw [List.nodup_append]
          refine ⟨hnd, by simp, ?_⟩
          intro a ha hb
          simp only [List.map_cons, List.map_nil, List.mem_singleton] at hb
          obtain ⟨x, hx, hxe⟩ := List.mem_map.mp ha
          rw [hb, hjid] at hxe
          exact hwf x hx hxe
        · intro x hx hmem
          rcases List.mem_append.mp hx with hx | hx
          · exact h2 x hx hmem
          · rw [List.mem_singleton.mp hx, hjen]
        · intro x hx hcf
          rcases List.mem_append.mp hx with hx | hx
          · exact h3 x hx hcf
          · rw [List.mem_singleton.mp hx, hjcf] at hcf
            omega
      refine armJob_inv opts job now cronValid hinv1 ?_
      intro x hx hxid
      rcases List.mem_append.mp hx with hx | hx
      · rw [hjid] at hxid
        exact absurd hxid (hwf x hx)
      · rw [List.mem_singleton.mp hx, hjen]
  | removeOp id =>
      dsimp only [applySchedOp, schedFires]
      split_ifs with hany
      · obtain ⟨hnd', h2', h3'⟩ := @disarmId_inv opts s id ⟨hnd, h2, h3⟩
        dsimp only
        refine ⟨?_, ?_, ?_⟩
        · exact List.Nodup.sublist
            (List.Sublist.map (fun x => x.id)
              (List.filter_sublist (disarmId s id).jobs)) hnd'
        · intro x hx hid
          exact h2' x (List.mem_of_mem_filter hx) hid
        · intro x hx hcf
          exact h3' x (List.mem_of_mem_filter hx) hcf
      · exact ⟨hnd, h2, h3⟩
  | updateOp id patch cronValid cronNext =>
      dsimp only [applySchedOp, schedFires]
      cases hfind : s.jobs.find? (fun j => j.id == id) with
      | none => exact ⟨hnd, h2, h3⟩
      | some j =>
          dsimp only
          have hjmem : j ∈ s.jobs := List.mem_of_find?_eq_some hfind
          have hjid : j.id = id := by
            have := List.find?_some hfind
            simpa using this
          set j1p : ScheduledJob := { j with
            name := patch.name.getD j.name,
            description :=
              match patch.description with | some d => some d | none => j.description }
            with hj1p
          set j2 := match patch.enabled with
            | some v =>
                { j1p with
                  enabled := v,
                  state :=
                    if v then { j1p.state with consecutiveFailures := 0 } else j1p.state }
            | none => j1p
            with hj2
          set j3 : ScheduledJob := { j2 with
            schedule := patch.schedule.getD j2.schedule,
            payload := patch.payload.getD j2.payload } with hj3
          set j4 := computeNextRun j3 now cronNext with hj4
          have hj4id : j4.id = id := by
            rw [hj4, computeNextRun_id, hj3]
            show j2.id = id
            rw [hj2]
            cases patch.enabled <;> exact hjid
          have hj4en : j4.enabled = (patch.enabled.getD j.enabled) := by
            rw [hj4, computeNextRun_enabled, hj3]
            show j2.enabled = _
            rw [hj2]
            cases patch.enabled <;> rfl
          have hj4cf : j4.state.consecutiveFailures =
              (match patch.enabled with
               | some true => 0
               | some false => j.state.consecutiveFailures
               | none => j.state.consecutiveFailures) := by
            rw [hj4, computeNextRun_failures, hj3]
            show j2.state.consecutiveFailures = _
            rw [hj2]
            rcases patch.enabled with _ | v
            · rfl
            · cases v <;> rfl
          set jobs1 := s.jobs.map (fun x => if x.id == id then j4 else x) with hjobs1
          have hids1 : jobs1.map (fun x => x.id) = s.jobs.map (fun x => x.id) := by
            rw [hjobs1, List.map_map]
            refine List.map_congr_left ?_
            intro x _
            dsimp only [Function.comp]
            by_cases hx : (x.id == id) = true
            · rw [if_pos hx, hj4id]
              exact (beq_iff_eq.mp hx).symm
            · rw [if_neg hx]
          have hmem1 : ∀ x' ∈ jobs1,
              ((x'.id = id ∧ x' = j4) ∨ (x' ∈ s.jobs ∧ x'.id ≠ id)) := by
            intro x' hx'
            rw [hjobs1] at hx'
            obtain ⟨x, hx, hxe⟩ := List.mem_map.mp hx'
            by_cases hxid : (x.id == id) = true
            · rw [if_pos hxid] at hxe
              exact Or.inl ⟨hxe ▸ hj4id, hxe.symm⟩
            · rw [if_neg hxid] at hxe
              exact Or.inr ⟨hxe ▸ hx, hxe ▸ fun hc => hxid (beq_iff_eq.mpr hc)⟩
          have hinv2 : schedInv opts
              ⟨jobs1, (s.armed.filter (fun a => a != id)),
                s.runningJobs, s.pendingQueue⟩ := by
            refine ⟨?_, ?_, ?_⟩
            · rw [hids1]
              exact hnd
            · intro x' hx' hid'
              have hne := (List.mem_filter.mp hid').2
              rcases hmem1 x' hx' with ⟨hxid, rfl⟩ | ⟨hxs, hxid⟩
              · rw [hj4id] at hne
                simp at hne
              · exact h2 x' hxs (List.mem_filter.mp hid').1
            · intro x' hx' hcf
              rcases hmem1 x' hx' with ⟨hxid, rfl⟩ | ⟨hxs, hxid⟩
              · rcases hpe : patch.enabled with _ | v
                · rw [hj4cf, hpe] at hcf
                  obtain ⟨hen, _⟩ := h3 j hjmem hcf
                  refine ⟨by rw [hj4en, hpe, Option.getD_none, hen], fun hmem => ?_⟩
                  have := (List.mem_filter.mp hmem).2
                  rw [hj4id] at this
                  simp at this
                · cases v
                  · refine ⟨by rw [hj4en, hpe]; rfl, fun hmem => ?_⟩
                    have := (List.mem_filter.mp hmem).2
                    rw [hj4id] at this
                    simp at this
                  · rw [hj4cf, hpe] at hcf
                    dsimp only at hcf
                    omega
              · obtain ⟨hen, harm⟩ := h3 x' hxs hcf
                exact ⟨hen, fun hmem => harm (List.mem_filter.mp hmem).1⟩
          by_cases hen4 : j4.enabled = true
          · rw [if_pos hen4]
            refine armJob_inv opts j4 now cronValid hinv2 ?_
            intro x hx hxid
            have hx4 : x = j4 := by
              refine List.inj_on_of_nodup_map hinv2.1 hx ?_ hxid
              have : j4 ∈ jobs1 := by
                rw [hjobs1]
                refine List.mem_map.mpr ⟨j, hjmem, ?_⟩
                rw [if_pos (beq_iff_eq.mpr hjid)]
              exact this
            rw [hx4]
            exact hen4
          · rw [if_neg hen4]
            exact hinv2
  | armedFire id cronNext =>
      dsimp only [applySchedOp, schedFires]
      split_ifs with hcont
      · cases hfind : s.jobs.find? (fun j => j.id == id) with
        | none => exact ⟨hnd, h2, h3⟩
        | some j =>
            dsimp only
            cases hsch : j.schedule with
            | atTime atMs =>
                have hc := enqueueExecution_core opts s id now
                exact schedInv_transfer hc.1 hc.2 ⟨hnd, h2, h3⟩
            | cron expr tz =>
                set s1 : SchedulerState := { s with
                  jobs := s.jobs.map
                    (fun x => if x.id == id then computeNextRun x now cronNext else x) }
                  with hs1
                have hcore : s1.jobs.map jobCore = s.jobs.map jobCore := by
                  rw [hs1]
                  dsimp only
                  rw [List.map_map]
                  refine List.map_congr_left ?_
                  intro x _
                  dsimp only [Function.comp]
                  by_cases hx : (x.id == id) = true
                  · rw [if_pos hx, jobCore_computeNextRun]
                  · rw [if_neg hx]
                have hinv1 : schedInv opts s1 :=
                  schedInv_transfer (show s1.armed = s.armed from rfl) hcore ⟨hnd, h2, h3⟩
                have hc := enqueueExecution_core opts s1 id now
                exact schedInv_transfer hc.1 hc.2 hinv1
            | every intervalMs =>
                set s1 : SchedulerState := { s with
                  jobs := s.jobs.map
                    (fun x => if x.id == id then computeNextRun x now cronNext else x) }
                  with hs1
                have hcore : s1.jobs.map jobCore = s.jobs.map jobCore := by
                  rw [hs1]
                  dsimp only
                  rw [List.map_map]
                  refine List.map_congr_left ?_
                  intro x _
                  dsimp only [Function.comp]
                  by_cases hx : (x.id == id) = true
                  · rw [if_pos hx, jobCore_computeNextRun]
                  · rw [if_neg hx]
                have hinv1 : schedInv opts s1 :=
                  schedInv_transfer (show s1.armed = s.armed from rfl) hcore ⟨hnd, h2, h3⟩
                have hc := enqueueExecution_core opts s1 id now
                exact schedInv_transfer hc.1 hc.2 hinv1
      · exact ⟨hnd, h2, h3⟩
  | safetyTick =>
      dsimp only [applySchedOp, schedFires]
      have hc := tickGo_core opts now (s.jobs.map (fun j => j.id)) s
      exact schedInv_transfer hc.1 hc.2 ⟨hnd, h2, h3⟩
  | runNowBegin id =>
      dsimp only [applySchedOp, schedFires]
      cases hfind : s.jobs.find? (fun j => j.id == id) with
      | none => exact ⟨hnd, h2, h3⟩
      | some j =>
          dsimp only
          refine @schedInv_transfer opts s _ rfl ?_ ⟨hnd, h2, h3⟩
          dsimp only
          rw [List.map_map]
          refine List.map_congr_left ?_
          intro x _
          dsimp only [Function.comp]
          by_cases hx : (x.id == id) = true
          · rw [if_pos hx]
            rfl
          · rw [if_neg hx]
  | finishRun id outcomes cronNext viaQueue =>
      dsimp only [applySchedOp, schedFires]
      have h1 := finishExecute_inv opts id outcomes now cronNext ⟨hnd, h2, h3⟩ hmax
      split_ifs with hq
      · have hc := drainGo_core opts now
          (finishExecute opts s id outcomes now cronNext).pendingQueue.length
          { finishExecute opts s id outcomes now cronNext with
            runningJobs :=
              (finishExecute opts s id outcomes now cronNext).runningJobs.filter
                (fun a => a != id) }
        exact schedInv_transfer hc.1 hc.2 h1
      · exact h1
  | restart cronValidF =>
      dsimp only [applySchedOp, schedFires]
      set s0 : SchedulerState :=
        { s with armed := [], runningJobs := [], pendingQueue := [] } with hs0
      have hinv0 : schedInv opts s0 := by
        refine ⟨hnd, ?_, ?_⟩
        · intro x hx hid
          exact absurd hid (List.not_mem_nil _)
        · intro x hx hcf
          exact ⟨(h3 x hx hcf).1, List.not_mem_nil _⟩
      have hrec := recoverGo_core opts now (s0.jobs.map (fun j => j.id)) s0
      have hinv1 : schedInv opts
          (recoverGo opts now (s0.jobs.map (fun j => j.id)) s0).1 :=
        schedInv_transfer hrec.1 hrec.2 hinv0
      exact armAllGo_inv opts now cronValidF _ _ hinv1

/-- Every reachable scheduler state satisfies the invariant. -/
theorem schedReachable_inv (opts : SchedulerOptions)
    (hmax : 0 < opts.maxConsecutiveFailures) {s : SchedulerState}
    (h : SchedReachable opts s) : schedInv opts s := by
  induction h with
  | init =>
      refine ⟨by simp [SchedulerState.init], ?_, ?_⟩
      · intro j hj
        exact absurd hj (List.not_mem_nil j)
      · intro j hj
        exact absurd hj (List.not_mem_nil j)
  | step s op now hwf hr ih => exact applySchedOp_inv opts op now ih hwf hmax

/-! ## Claim C3: which firing paths check `enabled` -/

/-- A job fired by `admitRun` is the stored record found for the id. -/
theorem mem_admit_fired {s : SchedulerState} {id : String} {now : Int}
    {j : ScheduledJob} (hj : j ∈ (admitRun s id now).2) :
    s.jobs.find? (fun x => x.id == id) = some j := by
  unfold admitRun at hj
  dsimp only at hj
  cases hfind : s.jobs.find? (fun x => x.id == id) with
  | none =>
      rw [hfind] at hj
      dsimp only at hj
      exact absurd hj (List.not_mem_nil j)
  | some j0 =>
      rw [hfind] at hj
      dsimp only at hj
      rw [List.mem_singleton] at hj
      rw [hj]

/-- A job fired by `enqueueExecution` is the stored record found for the id. -/
theorem mem_enqueue_fired {opts : SchedulerOptions} {s : SchedulerState}
    {id : String} {now : Int} {j : ScheduledJob}
    (hj : j ∈ (enqueueExecution opts s id now).2) :
    s.jobs.find? (fun x => x.id == id) = some j := by
  unfold enqueueExecution at hj
  split_ifs at hj with h1 h2
  · exact mem_admit_fired hj
  · exact absurd hj (List.not_mem_nil j)
  · exact absurd hj (List.not_mem_nil j)

/-- Replacing one job by its recomputed next-run copy keeps the job cores. -/
theorem mapComputeNextRun_core (l : List ScheduledJob) (id : String) (now : Int)
    (c : Option Int) :
    (l.map (fun x => if x.id == id then computeNextRun x now c else x)).map
        jobCore
      = l.map jobCore := by
  rw [List.map_map]
  refine List.map_congr_left ?_
  intro x _
  dsimp only [Function.comp]
  by_cases hx : (x.id == id) = true
  · rw [if_pos hx, jobCore_computeNextRun]
  · rw [if_neg hx]

/-- Replacing one job by its begin-bookkeeping copy keeps the job cores. -/
theorem mapBeginBookkeep_core (l : List ScheduledJob) (id : String)
    (now : Int) :
    (l.map (fun x => if x.id == id then beginBookkeep x now else x)).map jobCore
      = l.map jobCore := by
  rw [List.map_map]
  refine List.map_congr_left ?_
  intro x _
  dsimp only [Function.comp]
  by_cases hx : (x.id == id) = true
  · rw [if_pos hx, jobCore_beginBookkeep]
  · rw [if_neg hx]

/-- Matching a member of a core-equal list back to the original list. -/
theorem core_mem_back {l lp : List ScheduledJob}
    (hc : lp.map jobCore = l.map jobCore) {j : ScheduledJob} (hj : j ∈ lp) :
    ∃ x ∈ l, x.id = j.id ∧ x.enabled = j.enabled ∧
      x.state.consecutiveFailures = j.state.consecutiveFailures := by
  have hmem : jobCore j ∈ l.map jobCore := by
    rw [← hc]
    exact List.mem_map_of_mem jobCore hj
  obtain ⟨x, hx, hxe⟩ := List.mem_map.mp hmem
  exact ⟨x, hx, congrArg (fun q => q.1) hxe, congrArg (fun q => q.2.1) hxe,
    congrArg (fun q => q.2.2) hxe⟩

/-- Jobs fired by the safety tick pass its explicit `enabled` check. -/
theorem tickGo_fired_enabled (opts : SchedulerOptions) (now : Int) :
    ∀ (ids : List String) (s : SchedulerState),
      ∀ j ∈ (tickGo opts now ids s).2, j.enabled = true := by
  intro ids
  induction ids with
  | nil =>
      intro s j hj
      exact absurd hj (List.not_mem_nil j)
  | cons id rest ih =>
      intro s j hj
      unfold tickGo at hj
      dsimp only at hj
      split_ifs at hj with hfire
      · rcases List.mem_append.mp hj with hj | hj
        · have hfind := mem_enqueue_fired hj
          rw [hfind] at hfire
          dsimp only at hfire
          simp only [Bool.and_eq_true] at hfire
          exact hfire.1.1.1
        · exact ih _ j hj
      · exact ih s j hj

/-- From any state satisfying the invariant, a registered timer / croner /
interval callback (`armedFire`) only fires enabled jobs, because armed jobs
are enabled. -/
theorem armedFire_fired_enabled {opts : SchedulerOptions} {s : SchedulerState}
    (hinv : schedInv opts s) (id : String) (cronNext : Option Int)
    (now : Int) :
    ∀ j ∈ (schedFires opts (.armedFire id cronNext) now s).2,
      j.enabled = true := by
  obtain ⟨hnd, h2, _⟩ := hinv
  intro j hj
  dsimp only [schedFires] at hj
  split_ifs at hj with hcont
  · have hmem : id ∈ s.armed := by
      rw [← List.elem_iff]
      exact hcont
    cases hfind : s.jobs.find? (fun x => x.id == id) with
    | none =>
        rw [hfind] at hj
        exact absurd hj (List.not_mem_nil j)
    | some j0 =>
        rw [hfind] at hj
        dsimp only at hj
        cases hsch : j0.schedule with
        | atTime atMs =>
            rw [hsch] at hj
            dsimp only at hj
            have hfind2 := mem_enqueue_fired hj
            have hjid : j.id = id := by simpa using List.find?_some hfind2
            have hjmem : j ∈ s.jobs := List.mem_of_find?_eq_some hfind2
            refine h2 j hjmem ?_
            rw [hjid]
            exact hmem
        | cron expr tz =>
            rw [hsch] at hj
            dsimp only at hj
            have hfind2 := mem_enqueue_fired hj
            have hjid : j.id = id := by simpa using List.find?_some hfind2
            have hjmem := List.mem_of_find?_eq_some hfind2
            obtain ⟨x, hx, hxid, hxen, _⟩ :=
              core_mem_back (mapComputeNextRun_core s.jobs id now cronNext)
                hjmem
            rw [← hxen]
            refine h2 x hx ?_
            rw [hxid, hjid]
            exact hmem
        | every intervalMs =>
            rw [hsch] at hj
            dsimp only at hj
            have hfind2 := mem_enqueue_fired hj
            have hjid : j.id = id := by simpa using List.find?_some hfind2
            have hjmem := List.mem_of_find?_eq_some hfind2
            obtain ⟨x, hx, hxid, hxen, _⟩ :=
              core_mem_back (mapComputeNextRun_core s.jobs id now cronNext)
                hjmem
            rw [← hxen]
            refine h2 x hx ?_
            rw [hxid, hjid]
            exact hmem
  · exact absurd hj (List.not_mem_nil j)

/-- C3 counterexample: after adding an interval job and disabling it via
`update`, the store is reachable and still holds the job with
`enabled = false`; `Scheduler.runNow` nevertheless begins executing it
(the fired list carries a disabled job). -/
theorem C3_runNow_fires_disabled :
    SchedReachable {} c3S2 ∧
    ∃ j ∈ (schedFires {} (.runNowBegin "job-1") 6 c3S2).2,
      j.enabled = false := by
  constructor
  · have h1 : SchedReachable {} c3S1 :=
      SchedReachable.step SchedulerState.init c3AddOp 0
        (fun x hx => absurd hx (List.not_mem_nil x)) SchedReachable.init
    exact SchedReachable.step c3S1 c3DisableOp 5 True.intro h1
  · decide

/-- C3 (amended): from every reachable scheduler state, the registered timer
/ cron / interval callbacks (`armedFire`) and the safety tick only begin
executing jobs whose `enabled` flag is true at that moment; `runNow` (and
hence also the pending-queue drain it feeds) performs no such check and can
execute a disabled job, as the counterexample shows. -/
theorem C3_timer_and_tick_fire_enabled (opts : SchedulerOptions)
    {s : SchedulerState} (h : SchedReachable opts s)
    (hmax : 0 < opts.maxConsecutiveFailures) (id : String)
    (cronNext : Option Int) (now : Int) :
    (∀ j ∈ (schedFires opts (.armedFire id cronNext) now s).2,
        j.enabled = true) ∧
    (∀ j ∈ (schedFires opts .safetyTick now s).2, j.enabled = true) := by
  have hinv := schedReachable_inv opts hmax h
  refine ⟨armedFire_fired_enabled hinv id cronNext now, ?_⟩
  intro j hj
  dsimp only [schedFires] at hj
  exact tickGo_fired_enabled opts now (s.jobs.map (fun x => x.id)) s j hj

/-- Witness: the amended C3 theorem applied to the freshly constructed
scheduler with the default options. -/
theorem C3_timer_and_tick_fire_enabled_witness :
    (∀ j ∈ (schedFires {} (.armedFire "job-1" none) 0 SchedulerState.init).2,
        j.enabled = true) ∧
    (∀ j ∈ (schedFires {} .safetyTick 0 SchedulerState.init).2,
        j.enabled = true) :=
  C3_timer_and_tick_fire_enabled {} SchedReachable.init (by decide) "job-1"
    none 0

/-! ## Claim C4: auto-disable and explicit re-enable -/

/-- Across a core-preserving transition, a disabled job cannot show up
enabled under the same id. -/
theorem no_enable_core {s : SchedulerState} {lp : List ScheduledJob}
    (hc : lp.map jobCore = s.jobs.map jobCore)
    (hnd : (s.jobs.map (fun x => x.id)).Nodup)
    {j : ScheduledJob} (hj : j ∈ s.jobs) (hdis : j.enabled = false)
    {jq : ScheduledJob} (hjq : jq ∈ lp) (hid : jq.id = j.id)
    (hen : jq.enabled = true) : False := by
  obtain ⟨x, hx, hxid, hxen, _⟩ := core_mem_back hc hjq
  have hxj : x = j := List.inj_on_of_nodup_map hnd hx hj (hxid.trans hid)
  rw [hxj, hdis] at hxen
  exact Bool.false_ne_true (hxen.trans hen)

/-- `armAll` keeps the job cores. -/
theorem armAllGo_jobs_core (opts : SchedulerOptions) (now : Int)
    (cronValidF : String → Bool) :
    ∀ (ids : List String) (s : SchedulerState),
      (armAllGo opts now cronValidF ids s).1.jobs.map jobCore
        = s.jobs.map jobCore := by
  intro ids
  induction ids with
  | nil => exact fun s => rfl
  | cons id rest ih =>
      intro s
      unfold armAllGo
      cases hfind : s.jobs.find? (fun x => x.id == id) with
      | none => exact ih s
      | some j =>
          dsimp only
          split_ifs with hen
          · exact (ih _).trans (armJob_jobs_core opts s j now (cronValidF id))
          · exact ih s

/-- `finishExecute` never enables a job: the failure path can only clear the
flag, the success path leaves it unchanged. -/
theorem finishExecute_no_enable (opts : SchedulerOptions) {s : SchedulerState}
    (id : String) (outcomes : Nat → AttemptOutcome) (now : Int)
    (cronNext : Option Int)
    (hnd : (s.jobs.map (fun x => x.id)).Nodup)
    {j : ScheduledJob} (hj : j ∈ s.jobs) (hdis : j.enabled = false)
    {jq : ScheduledJob}
    (hjq : jq ∈ (finishExecute opts s id outcomes now cronNext).jobs)
    (hid : jq.id = j.id) : jq.enabled = false := by
  unfold finishExecute at hjq
  cases hfind : s.jobs.find? (fun x => x.id == id) with
  | none =>
      rw [hfind] at hjq
      dsimp only at hjq
      have hqj : jq = j := List.inj_on_of_nodup_map hnd hjq hj hid
      rw [hqj]
      exact hdis
  | some j0 =>
      rw [hfind] at hjq
      dsimp only at hjq
      have hj0mem : j0 ∈ s.jobs := List.mem_of_find?_eq_some hfind
      have hj0id : j0.id = id := by simpa using List.find?_some hfind
      by_cases hdel :
          (finishJobUpdate opts j0 outcomes now).deleteAfterRun = true
      · rw [if_pos hdel] at hjq
        dsimp only at hjq
        have hne : (jq.id != id) = true := (List.mem_filter.mp hjq).2
        have hjqm := List.mem_of_mem_filter hjq
        obtain ⟨x, hx, hxe⟩ := List.mem_map.mp hjqm
        by_cases hxid : (x.id == id) = true
        · rw [if_pos hxid] at hxe
          exfalso
          have : jq.id = id := by
            rw [← hxe, finishJobUpdate_id, hj0id]
          rw [this] at hne
          simp at hne
        · rw [if_neg hxid] at hxe
          have hxj : x = j := List.inj_on_of_nodup_map hnd hx hj
            (by rw [hxe, hid])
          rw [← hxe, hxj]
          exact hdis
      · rw [if_neg hdel] at hjq
        dsimp only at hjq
        obtain ⟨x, hx, hxe⟩ := List.mem_map.mp hjq
        obtain ⟨y, hy, hye⟩ := List.mem_map.mp hx
        by_cases hxid : (x.id == id) = true
        · rw [if_pos hxid] at hxe
          have hen : jq.enabled
              = (finishJobUpdate opts j0 outcomes now).enabled := by
            rw [← hxe, computeNextRun_enabled]
          have hjid : j.id = id := by
            rw [← hid, ← hxe, computeNextRun_id, finishJobUpdate_id, hj0id]
          have hj0j : j0 = j := List.inj_on_of_nodup_map hnd hj0mem hj
            (hj0id.trans hjid.symm)
          rw [hen, hj0j]
          cases hb : (finishJobUpdate opts j outcomes now).enabled with
          | false => rfl
          | true =>
              have := finishJobUpdate_enabled opts j outcomes now hb
              rw [hdis] at this
              exact absurd this Bool.false_ne_true
        · rw [if_neg hxid] at hxe
          by_cases hyid : (y.id == id) = true
          · rw [if_pos hyid] at hye
            exfalso
            apply hxid
            rw [← hye, finishJobUpdate_id, hj0id]
            exact beq_self_eq_true id
          · rw [if_neg hyid] at hye
            have hyj : y = j := List.inj_on_of_nodup_map hnd hy hj
              (by rw [hye, hxe, hid])
            rw [← hxe, ← hye, hyj]
            exact hdis

/-- C4: in every reachable scheduler state a job at or beyond
`maxConsecutiveFailures` is disabled and disarmed; and from any reachable
state, a disabled job can only reappear enabled (under its id) through an
explicit `update` carrying `enabled = true`, which also resets its
`consecutiveFailures` to 0. -/
theorem C4_auto_disable (opts : SchedulerOptions)
    (hmax : 0 < opts.maxConsecutiveFailures) {s : SchedulerState}
    (h : SchedReachable opts s) :
    (∀ j ∈ s.jobs,
        opts.maxConsecutiveFailures ≤ j.state.consecutiveFailures →
          j.enabled = false ∧ j.id ∉ s.armed) ∧
    (∀ (op : SchedOp) (now : Int), WellFormedOp s op →
      ∀ j ∈ s.jobs, j.enabled = false →
        ∀ jq ∈ (applySchedOp opts op now s).jobs, jq.id = j.id →
          jq.enabled = true →
            opEnablesId op j.id ∧ jq.state.consecutiveFailures = 0) := by
  obtain ⟨hnd, h2, h3⟩ := schedReachable_inv opts hmax h
  refine ⟨h3, ?_⟩
  intro op now hwf j hjmem hdis jq hjq hid hen
  cases op with
  | add name description schedule payload sessionKey deleteAfterRun uuid
      cronValid cronNext =>
      exfalso
      dsimp only [applySchedOp, schedFires] at hjq
      set job0 : ScheduledJob :=
        { id := uuid, name := name, description := description, enabled := true,
          deleteAfterRun := deleteAfterRun.getD (defaultDeleteAfterRun schedule),
          schedule := schedule, payload := payload, sessionKey := sessionKey,
          createdAt := now, lastRunAt := none, lastError := none, runCount := 0,
          state := { nextRunAtMs := none, consecutiveFailures := 0,
                     lastRetryAtMs := none } } with hjob0
      set job := computeNextRun job0 now cronNext with hjob
      have hjobid : job.id = uuid := by rw [hjob, computeNextRun_id, hjob0]
      obtain ⟨x, hx, hxid, hxen, _⟩ :=
        core_mem_back (armJob_jobs_core opts _ job now cronValid) hjq
      have hx2 : x ∈ s.jobs ++ [job] := hx
      rcases List.mem_append.mp hx2 with hxs | hxj
      · have hxj : x = j := List.inj_on_of_nodup_map hnd hxs hjmem
          (hxid.trans hid)
        rw [hxj, hdis] at hxen
        exact Bool.false_ne_true (hxen.trans hen)
      · refine hwf j hjmem ?_
        rw [← hid, ← hxid, List.mem_singleton.mp hxj, hjobid]
  | removeOp id =>
      exfalso
      dsimp only [applySchedOp, schedFires] at hjq
      split_ifs at hjq with hany
      · dsimp only at hjq
        have hjq2 : jq ∈ s.jobs := List.mem_of_mem_filter hjq
        have hqj : jq = j := List.inj_on_of_nodup_map hnd hjq2 hjmem hid
        rw [hqj, hdis] at hen
        exact Bool.false_ne_true hen
      · have hqj : jq = j := List.inj_on_of_nodup_map hnd hjq hjmem hid
        rw [hqj, hdis] at hen
        exact Bool.false_ne_true hen
  | updateOp id patch cronValid cronNext =>
      dsimp only [applySchedOp, schedFires] at hjq
      cases hfind : s.jobs.find? (fun x => x.id == id) with
      | none =>
          exfalso
          rw [hfind] at hjq
          dsimp only at hjq
          have hqj : jq = j := List.inj_on_of_nodup_map hnd hjq hjmem hid
          rw [hqj, hdis] at hen
          exact Bool.false_ne_true hen
      | some j0 =>
          rw [hfind] at hjq
          dsimp only at hjq
          have hj0mem : j0 ∈ s.jobs := List.mem_of_find?_eq_some hfind
          have hj0id : j0.id = id := by
            have := List.find?_some hfind
            simpa using this
          set j1p : ScheduledJob := { j0 with
            name := patch.name.getD j0.name,
            description :=
              match patch.description with
              | some d => some d
              | none => j0.description }
            with hj1p
          set j2 := match patch.enabled with
            | some v =>
                { j1p with
                  enabled := v,
                  state :=
                    if v then { j1p.state with consecutiveFailures := 0 }
                    else j1p.state }
            | none => j1p
            with hj2
          set j3 : ScheduledJob := { j2 with
            schedule := patch.schedule.getD j2.schedule,
            payload := patch.payload.getD j2.payload } with hj3
          set j4 := computeNextRun j3 now cronNext with hj4
          have hj4id : j4.id = id := by
            rw [hj4, computeNextRun_id, hj3]
            show j2.id = id
            rw [hj2]
            cases patch.enabled <;> exact hj0id
          have hj4en : j4.enabled = (patch.enabled.getD j0.enabled) := by
            rw [hj4, computeNextRun_enabled, hj3]
            show j2.enabled = _
            rw [hj2]
            cases patch.enabled <;> rfl
          have hj4cf : j4.state.consecutiveFailures =
              (match patch.enabled with
               | some true => 0
               | some false => j0.state.consecutiveFailures
               | none => j0.state.consecutiveFailures) := by
            rw [hj4, computeNextRun_failures, hj3]
            show j2.state.consecutiveFailures = _
            rw [hj2]
            rcases patch.enabled with _ | v
            · rfl
            · cases v <;> rfl
          set jobs1 := s.jobs.map (fun x => if x.id == id then j4 else x)
            with hjobs1
          have hxex : ∃ x ∈ jobs1, x.id = jq.id ∧ x.enabled = jq.enabled ∧
              x.state.consecutiveFailures = jq.state.consecutiveFailures := by
            by_cases hen4 : j4.enabled = true
            · rw [if_pos hen4] at hjq
              obtain ⟨x, hx, hp⟩ :=
                core_mem_back (armJob_jobs_core opts _ j4 now cronValid) hjq
              exact ⟨x, hx, hp⟩
            · rw [if_neg hen4] at hjq
              exact ⟨jq, hjq, rfl, rfl, rfl⟩
          obtain ⟨x, hx, hxid, hxen, hxcf⟩ := hxex
          rw [hjobs1] at hx
          obtain ⟨y, hy, hye⟩ := List.mem_map.mp hx
          by_cases hyid : (y.id == id) = true
          · rw [if_pos hyid] at hye
            have hidj : id = j.id := by
              rw [← hj4id, hye, hxid, hid]
            have hj0j : j0 = j := List.inj_on_of_nodup_map hnd hj0mem hjmem
              (hj0id.trans hidj)
            rcases hpe : patch.enabled with _ | v
            · exfalso
              have hxe : x.enabled = false := by
                rw [← hye, hj4en, hpe, Option.getD_none, hj0j]
                exact hdis
              rw [hxe] at hxen
              exact Bool.false_ne_true (hxen.trans hen)
            · cases v with
              | false =>
                  exfalso
                  have hxe : x.enabled = false := by
                    rw [← hye, hj4en, hpe]
                    rfl
                  rw [hxe] at hxen
                  exact Bool.false_ne_true (hxen.trans hen)
              | true =>
                  refine ⟨⟨hidj, hpe⟩, ?_⟩
                  rw [← hxcf, ← hye, hj4cf, hpe]
          · rw [if_neg hyid] at hye
            exfalso
            have hyj : y = j := List.inj_on_of_nodup_map hnd hy hjmem
              (by rw [hye, hxid, hid])
            have hxe : x.enabled = false := by
              rw [← hye, hyj]
              exact hdis
            rw [hxe] at hxen
            exact Bool.false_ne_true (hxen.trans hen)
  | armedFire id cronNext =>
      exfalso
      have hcores : (applySchedOp opts (SchedOp.armedFire id cronNext) now
            s).jobs.map jobCore = s.jobs.map jobCore := by
        dsimp only [applySchedOp, schedFires]
        split_ifs with hcont
        · cases hfind : s.jobs.find? (fun x => x.id == id) with
          | none => rfl
          | some j0 =>
              dsimp only
              cases hsch : j0.schedule with
              | atTime atMs => exact (enqueueExecution_core opts s id now).2
              | cron expr tz =>
                  exact ((enqueueExecution_core opts _ id now).2).trans
                    (mapComputeNextRun_core s.jobs id now cronNext)
              | every intervalMs =>
                  exact ((enqueueExecution_core opts _ id now).2).trans
                    (mapComputeNextRun_core s.jobs id now cronNext)
        · rfl
      exact no_enable_core hcores hnd hjmem hdis hjq hid hen
  | safetyTick =>
      exfalso
      have hcores : (applySchedOp opts SchedOp.safetyTick now s).jobs.map
            jobCore = s.jobs.map jobCore := by
        dsimp only [applySchedOp, schedFires]
        exact (tickGo_core opts now (s.jobs.map (fun x => x.id)) s).2
      exact no_enable_core hcores hnd hjmem hdis hjq hid hen
  | runNowBegin id =>
      exfalso
      have hcores : (applySchedOp opts (SchedOp.runNowBegin id) now s).jobs.map
            jobCore = s.jobs.map jobCore := by
        dsimp only [applySchedOp, schedFires]
        cases hfind : s.jobs.find? (fun x => x.id == id) with
        | none => rfl
        | some j0 =>
            dsimp only
            exact mapBeginBookkeep_core s.jobs id now
      exact no_enable_core hcores hnd hjmem hdis hjq hid hen
  | finishRun id outcomes cronNext viaQueue =>
      exfalso
      dsimp only [applySchedOp, schedFires] at hjq
      split_ifs at hjq with hq
      · have hdq := drainGo_core opts now
          (finishExecute opts s id outcomes now cronNext).pendingQueue.length
          { finishExecute opts s id outcomes now cronNext with
            runningJobs :=
              (finishExecute opts s id outcomes now cronNext).runningJobs.filter
                (fun a => a != id) }
        obtain ⟨x, hx, hxid, hxen, _⟩ := core_mem_back hdq.2 hjq
        have hxen2 : x.enabled = false :=
          finishExecute_no_enable opts id outcomes now cronNext hnd hjmem hdis
            hx (hxid.trans hid)
        rw [hxen2] at hxen
        exact Bool.false_ne_true (hxen.trans hen)
      · have hqen : jq.enabled = false :=
          finishExecute_no_enable opts id outcomes now cronNext hnd hjmem hdis
            hjq hid
        rw [hqen] at hen
        exact Bool.false_ne_true hen
  | restart cronValidF =>
      exfalso
      have hcores : (applySchedOp opts (SchedOp.restart cronValidF) now
            s).jobs.map jobCore = s.jobs.map jobCore := by
        dsimp only [applySchedOp, schedFires]
        exact (armAllGo_jobs_core opts now cronValidF _ _).trans
          (recoverGo_core opts now
            (s.jobs.map (fun x => x.id))
            { s with armed := [], runningJobs := [], pendingQueue := [] }).2
      exact no_enable_core hcores hnd hjmem hdis hjq hid hen

/-- Witness: C4 applied to the freshly constructed scheduler with the
default options. -/
theorem C4_auto_disable_witness :
    (∀ j ∈ SchedulerState.init.jobs,
        ({} : SchedulerOptions).maxConsecutiveFailures
            ≤ j.state.consecutiveFailures →
          j.enabled = false ∧ j.id ∉ SchedulerState.init.armed) ∧
    (∀ (op : SchedOp) (now : Int), WellFormedOp SchedulerState.init op →
      ∀ j ∈ SchedulerState.init.jobs, j.enabled = false →
        ∀ jq ∈ (applySchedOp {} op now SchedulerState.init).jobs,
          jq.id = j.id → jq.enabled = true →
            opEnablesId op j.id ∧ jq.state.consecutiveFailures = 0) :=
  C4_auto_disable {} (by decide) SchedReachable.init

/-! ## Claim C1: serialization of same-key `handleMessage` calls -/

/-- The two-call invariant holds at the start. -/
theorem runnerInv_init : runnerInv (initRunner 2) := by
  have he : initRunner 2
      = ⟨[CallPhase.arrived, CallPhase.arrived], none, []⟩ := rfl
  rw [he]
  refine ⟨rfl, ?_, ?_, ?_, ?_⟩
  · intro i hk
    rcases i with _ | _ | i <;> simp at hk
  · intro i p hk
    rcases i with _ | _ | i <;> simp at hk
  · intro p hp
    exact absurd hp (List.not_mem_nil p)
  · intro q hq
    simp at hq

/-- One step of the two-call system preserves the invariant. -/
theorem runnerInv_step {s t : RunnerState} (hinv : runnerInv s)
    (hstep : RunnerStep s t) : runnerInv t := by
  obtain ⟨h1, h2, h3, h4, h5⟩ := hinv
  cases hstep with
  | start i hi hin =>
      have hilen : i < s.phases.length := (List.getElem?_eq_some.mp hi).1
      refine ⟨by rw [List.length_set]; exact h1, ?_, ?_, ?_, ?_⟩
      · intro k hk
        by_cases hki : i = k
        · rw [hki]
        · rw [List.getElem?_set_ne hki] at hk
          have hik := h2 k hk
          rw [hin] at hik
          simp at hik
      · intro k p hk
        by_cases hki : i = k
        · rw [← hki, List.getElem?_set_self hilen] at hk
          simp at hk
        · rw [List.getElem?_set_ne hki] at hk
          exact h3 k p hk
      · intro p hp
        have hpd := h4 p hp
        have hpi : i ≠ p := by
          intro he
          rw [he] at hi
          rw [hi] at hpd
          simp at hpd
        rw [List.getElem?_set_ne hpi]
        exact hpd
      · intro q hq
        have hiq : i = q := by
          injection hq
        left
        rw [← hiq]
        exact List.getElem?_set_self hilen
  | wait i p hi hin =>
      have hilen : i < s.phases.length := (List.getElem?_eq_some.mp hi).1
      have hpne : p ≠ i := by
        intro he
        have h5p := h5 p hin
        rw [he, hi] at h5p
        rcases h5p with hc | hc <;> simp at hc
      refine ⟨by rw [List.length_set]; exact h1, ?_, ?_, ?_, ?_⟩
      · intro k hk
        by_cases hki : i = k
        · rw [← hki, List.getElem?_set_self hilen] at hk
          simp at hk
        · rw [List.getElem?_set_ne hki] at hk
          exact h2 k hk
      · intro k q hk
        by_cases hki : i = k
        · rw [← hki, List.getElem?_set_self hilen] at hk
          have hpq : CallPhase.waiting p = CallPhase.waiting q := by
            injection hk
          have hq2 : p = q := by
            injection hpq
          rw [← hki, ← hq2]
          exact hpne
        · rw [List.getElem?_set_ne hki] at hk
          exact h3 k q hk
      · intro pq hpq
        have hpd := h4 pq hpq
        have hpi : i ≠ pq := by
          intro he
          rw [he] at hi
          rw [hi] at hpd
          simp at hpd
        rw [List.getElem?_set_ne hpi]
        exact hpd
      · intro q hq
        have hqp : q = p := by
          rw [hin] at hq
          have := Option.some.inj hq
          exact this.symm
        rcases h5 p hin with hc | hc
        · left
          rw [hqp, List.getElem?_set_ne (Ne.symm hpne)]
          exact hc
        · right
          rw [hqp, List.getElem?_set_ne (Ne.symm hpne)]
          exact hc
  | wake i p hi hp =>
      have hilen : i < s.phases.length := (List.getElem?_eq_some.mp hi).1
      have hpd := h4 p hp
      have hplen : p < s.phases.length := (List.getElem?_eq_some.mp hpd).1
      have hpi : p ≠ i := h3 i p hi
      refine ⟨by rw [List.length_set]; exact h1, ?_, ?_, ?_, ?_⟩
      · intro k hk
        by_cases hki : i = k
        · rw [hki]
        · rw [List.getElem?_set_ne hki] at hk
          have hklen : k < s.phases.length := (List.getElem?_eq_some.mp hk).1
          have hkp : k = p := by
            rw [h1] at hilen hplen hklen
            omega
          rw [hkp, hpd] at hk
          simp at hk
      · intro k q hk
        by_cases hki : i = k
        · rw [← hki, List.getElem?_set_self hilen] at hk
          simp at hk
        · rw [List.getElem?_set_ne hki] at hk
          exact h3 k q hk
      · intro pq hpq
        have hqd := h4 pq hpq
        have hqi : i ≠ pq := by
          intro he
          rw [he] at hi
          rw [hi] at hqd
          simp at hqd
        rw [List.getElem?_set_ne hqi]
        exact hqd
      · intro q hq
        have hiq : i = q := by
          injection hq
        left
        rw [← hiq]
        exact List.getElem?_set_self hilen
  | finish i hi =>
      have hilen : i < s.phases.length := (List.getElem?_eq_some.mp hi).1
      refine ⟨by rw [List.length_set]; exact h1, ?_, ?_, ?_, ?_⟩
      · intro k hk
        by_cases hki : i = k
        · rw [← hki, List.getElem?_set_self hilen] at hk
          simp at hk
        · rw [List.getElem?_set_ne hki] at hk
          exfalso
          have h2k := h2 k hk
          have h2i := h2 i hi
          rw [h2k] at h2i
          have := Option.some.inj h2i
          exact hki this.symm
      · intro k q hk
        by_cases hki : i = k
        · rw [← hki, List.getElem?_set_self hilen] at hk
          simp at hk
        · rw [List.getElem?_set_ne hki] at hk
          exact h3 k q hk
      · intro q hq
        rcases List.mem_cons.mp hq with hq | hq
        · rw [hq]
          exact List.getElem?_set_self hilen
        · have hqd := h4 q hq
          have hqi : i ≠ q := by
            intro he
            rw [← he] at hqd
            rw [hi] at hqd
            simp at hqd
          rw [List.getElem?_set_ne hqi]
          exact hqd
      · intro q hq
        by_cases hc : s.inflight = some i
        · rw [if_pos hc] at hq
          simp at hq
        · rw [if_neg hc] at hq
          have h5q := h5 q hq
          have hqi : i ≠ q := by
            intro he
            rw [← he] at hq
            exact hc hq
          rcases h5q with hcc | hcc
          · left
            rw [List.getElem?_set_ne hqi]
            exact hcc
          · right
            rw [List.getElem?_set_ne hqi]
            exact hcc

/-- Every state reachable by two same-key calls satisfies the invariant. -/
theorem runnerReachable_inv {s : RunnerState} (h : RunnerReachable 2 s) :
    runnerInv s := by
  induction h with
  | init => exact runnerInv_init
  | step s t hr hstep ih => exact runnerInv_step ih hstep

/-- C1 counterexample: with three concurrent same-key calls, the state in
which call 0 has finished while calls 1 and 2 are both running is reachable
— each later call awaits only the single promise the map held when it
arrived, so after call 0 settles, calls 1 and 2 resume together. -/
theorem C1_counterexample :
    RunnerReachable 3 c1Bad ∧ ¬ atMostOneRunning c1Bad := by
  constructor
  · have h0 : RunnerReachable 3 (initRunner 3) := RunnerReachable.init
    have h1 : RunnerReachable 3
        ⟨[CallPhase.running, CallPhase.arrived, CallPhase.arrived],
          some 0, []⟩ :=
      RunnerReachable.step _ _ h0 (RunnerStep.start (initRunner 3) 0 rfl rfl)
    have h2 : RunnerReachable 3
        ⟨[CallPhase.running, CallPhase.waiting 0, CallPhase.arrived],
          some 0, []⟩ :=
      RunnerReachable.step _ _ h1 (RunnerStep.wait _ 1 0 rfl rfl)
    have h3 : RunnerReachable 3
        ⟨[CallPhase.running, CallPhase.waiting 0, CallPhase.waiting 0],
          some 0, []⟩ :=
      RunnerReachable.step _ _ h2 (RunnerStep.wait _ 2 0 rfl rfl)
    have h4 : RunnerReachable 3
        ⟨[CallPhase.done, CallPhase.waiting 0, CallPhase.waiting 0],
          none, [0]⟩ :=
      RunnerReachable.step _ _ h3 (RunnerStep.finish _ 0 rfl)
    have h5 : RunnerReachable 3
        ⟨[CallPhase.done, CallPhase.running, CallPhase.waiting 0],
          some 1, [0]⟩ :=
      RunnerReachable.step _ _ h4 (RunnerStep.wake _ 1 0 rfl (by decide))
    exact RunnerReachable.step _ _ h5 (RunnerStep.wake _ 2 0 rfl (by decide))
  · intro hmono
    exact absurd (hmono 1 2 rfl rfl) (by decide)

/-- C1 (amended): two concurrent `handleMessage` calls with the same
sessionKey are serialized — in every reachable state at most one of the two
runs is in flight.  With three or more concurrent calls the property fails,
because each call awaits only the promise stored in the map at its arrival
(see the counterexample). -/
theorem C1_two_calls_serialized {s : RunnerState}
    (h : RunnerReachable 2 s) : atMostOneRunning s := by
  obtain ⟨_, h2, _, _, _⟩ := runnerReachable_inv h
  intro i j hi hj
  have hii := h2 i hi
  have hjj := h2 j hj
  rw [hii] at hjj
  exact Option.some.inj hjj

/-- Witness: the amended C1 theorem applied at the initial two-call state. -/
theorem C1_two_calls_serialized_witness : atMostOneRunning (initRunner 2) :=
  C1_two_calls_serialized RunnerReachable.init

end NanoOpenclaw
